import Mathlib

/-!
Verification of the core of `share/IlluminaData.py` (module version 1.1.1).

The Python module is Python 2 code.  We embed the relevant functions shallowly:

* Python strings are modelled as `List Char` (`PyStr`); `str.split(sep)` for a
  one-character separator is `splitSep`, `sep.join` is `joinSep`, slicing and
  indexing are list operations.
* Python `int(...)` applied to a string is `pyInt` (optional surrounding
  whitespace, an optional single sign, then a nonempty run of decimal digits;
  any other shape raises `ValueError`, modelled as `none`).
* `"%03d" % n` is `fmt03d`, `"%d" % n` is `fmtD`.
* fallible code returns `Option` / an explicit result type; an exception is
  `none` (or an `error` constructor).

The module under test imports `TabFile` and `bcf_utils`, which are not part of
this repository snapshot; the few facts needed about them are modelled from the
specification and marked `Modelled from the spec:` at their definitions.
-/

/-- Python strings, modelled as lists of characters. -/
abbrev PyStr := List Char

/-- Coerce a Lean string literal to the `PyStr` model. -/
def pystr (s : String) : PyStr := s.data

/-- Python 2 `str.split(sep)` for a single-character separator: splits at every
occurrence of `sep`; the empty string yields `[""]`. -/
def splitSep (sep : Char) : List Char → List (List Char)
  | [] => [[]]
  | c :: cs =>
    match splitSep sep cs with
    | [] => [[]]
    | t :: ts => if c = sep then [] :: t :: ts else (c :: t) :: ts

/-- Python `sep.join(parts)` for a single-character separator. -/
def joinSep (sep : Char) : List (List Char) → List Char
  | [] => []
  | [x] => x
  | x :: y :: ys => x ++ sep :: joinSep sep (y :: ys)

theorem splitSep_cons_eq (sep c : Char) (cs t : List Char) (ts : List (List Char))
    (h : splitSep sep cs = t :: ts) :
    splitSep sep (c :: cs) = if c = sep then [] :: t :: ts else (c :: t) :: ts := by
  unfold splitSep
  rw [h]

theorem splitSep_ne_nil (sep : Char) (s : List Char) : splitSep sep s ≠ [] := by
  cases s with
  | nil => simp [splitSep]
  | cons c cs =>
    simp only [splitSep]
    cases h : splitSep sep cs with
    | nil => simp
    | cons t ts =>
      by_cases hc : c = sep <;> simp [hc]

theorem joinSep_cons (sep : Char) (x : List Char) (xs : List (List Char)) (h : xs ≠ []) :
    joinSep sep (x :: xs) = x ++ sep :: joinSep sep xs := by
  cases xs with
  | nil => exact absurd rfl h
  | cons y ys => rfl

theorem joinSep_splitSep (sep : Char) (s : List Char) :
    joinSep sep (splitSep sep s) = s := by
  induction s with
  | nil => rfl
  | cons c cs ih =>
    cases h : splitSep sep cs with
    | nil => exact absurd h (splitSep_ne_nil sep cs)
    | cons t ts =>
      rw [h] at ih
      rw [splitSep_cons_eq sep c cs t ts h]
      by_cases hc : c = sep
      · rw [if_pos hc, joinSep_cons sep [] (t :: ts) (by simp), ih, hc]
        simp
      · rw [if_neg hc]
        cases ts with
        | nil =>
          rw [show joinSep sep [c :: t] = c :: t from rfl]
          rw [show joinSep sep [t] = t from rfl] at ih
          rw [ih]
        | cons u us =>
          rw [joinSep_cons sep (c :: t) (u :: us) (by simp)]
          rw [joinSep_cons sep t (u :: us) (by simp)] at ih
          simp [← ih]

theorem splitSep_append (sep : Char) (a b : List Char) :
    splitSep sep (a ++ sep :: b) = splitSep sep a ++ splitSep sep b := by
  induction a with
  | nil =>
    simp only [List.nil_append, splitSep]
    cases h : splitSep sep b with
    | nil => exact absurd h (splitSep_ne_nil sep b)
    | cons t ts => simp
  | cons c a' ih =>
    cases h : splitSep sep a' with
    | nil => exact absurd h (splitSep_ne_nil sep a')
    | cons t ts =>
      have h2 : splitSep sep (a' ++ sep :: b) = t :: (ts ++ splitSep sep b) := by
        rw [ih, h]
        rfl
      rw [List.cons_append, splitSep_cons_eq sep c _ _ _ h2,
          splitSep_cons_eq sep c a' t ts h]
      by_cases hc : c = sep <;> simp [hc]

theorem splitSep_of_not_mem (sep : Char) (s : List Char) (h : sep ∉ s) :
    splitSep sep s = [s] := by
  induction s with
  | nil => rfl
  | cons c cs ih =>
    simp only [List.mem_cons, not_or] at h
    rw [splitSep_cons_eq sep c cs cs [] (ih h.2)]
    rw [if_neg (fun hcs => h.1 hcs.symm)]

/-- Every character of `joinSep sep parts` is `sep` or comes from a part. -/
theorem mem_joinSep (sep : Char) (parts : List (List Char)) (c : Char)
    (h : c ∈ joinSep sep parts) : c = sep ∨ ∃ p ∈ parts, c ∈ p := by
  induction parts with
  | nil => simp [joinSep] at h
  | cons x xs ih =>
    cases xs with
    | nil =>
      simp only [joinSep] at h
      exact Or.inr ⟨x, by simp, h⟩
    | cons y ys =>
      rw [joinSep_cons sep x (y :: ys) (by simp)] at h
      rcases List.mem_append.1 h with hx | hrest
      · exact Or.inr ⟨x, by simp, hx⟩
      · rcases List.mem_cons.1 hrest with hc | hj
        · exact Or.inl hc
        · rcases ih hj with hs | ⟨p, hp, hcp⟩
          · exact Or.inl hs
          · exact Or.inr ⟨p, by simp [hp], hcp⟩

/-- Python negative indexing `xs[-k]` (for `k ≥ 1`): `IndexError` is `none`. -/
def negIdx {α : Type} (xs : List α) (k : Nat) : Option α :=
  if k ≤ xs.length then xs[xs.length - k]? else none

theorem negIdx_append {α : Type} (xs ys : List α) (k : Nat)
    (h2 : k ≤ ys.length) : negIdx (xs ++ ys) k = negIdx ys k := by
  unfold negIdx
  rw [List.length_append]
  rw [if_pos (by omega), if_pos h2]
  rw [List.getElem?_append_right (by omega)]
  congr 1
  omega

theorem negIdx_one_append_singleton {α : Type} (xs : List α) (x : α) :
    negIdx (xs ++ [x]) 1 = some x := by
  rw [negIdx_append xs [x] 1 (by simp)]
  simp [negIdx]

/-- Value of a string of decimal digit characters, read left to right
(the semantics of Python `int` on a plain digit string). -/
def digitsToNat (ds : List Char) : Nat :=
  ds.foldl (fun a c => a * 10 + (c.toNat - 48)) 0

/-- Lower-level accumulator form of `digitsToNat`. -/
def digitsToNatFrom (a : Nat) (ds : List Char) : Nat :=
  ds.foldl (fun a c => a * 10 + (c.toNat - 48)) a

/-- Decimal digit characters of a natural number (fuel-driven so that the
definition is structurally recursive and kernel-reducible). -/
def natToDigitsGo : Nat → Nat → List Char
  | 0, _ => []
  | fuel + 1, n =>
    if n < 10 then [Nat.digitChar n]
    else natToDigitsGo fuel (n / 10) ++ [Nat.digitChar (n % 10)]

/-- Decimal representation of a natural number, without sign or padding
(the digits produced by Python `"%d" % n` for `n ≥ 0`). -/
def natToDigits (n : Nat) : List Char :=
  natToDigitsGo (n + 1) n

theorem natToDigitsGo_fuel (f1 f2 n : Nat) (h1 : n < f1) (h2 : n < f2) :
    natToDigitsGo f1 n = natToDigitsGo f2 n := by
  induction n using Nat.strong_induction_on generalizing f1 f2 with
  | _ n ih =>
    cases f1 with
    | zero => omega
    | succ g1 =>
      cases f2 with
      | zero => omega
      | succ g2 =>
        simp only [natToDigitsGo]
        by_cases hn : n < 10
        · simp [hn]
        · rw [if_neg hn, if_neg hn, ih (n / 10) (by omega) g1 g2 (by omega) (by omega)]

theorem natToDigits_lt_ten (n : Nat) (h : n < 10) :
    natToDigits n = [Nat.digitChar n] := by
  simp [natToDigits, natToDigitsGo, h]

theorem natToDigits_ge_ten (n : Nat) (h : 10 ≤ n) :
    natToDigits n = natToDigits (n / 10) ++ [Nat.digitChar (n % 10)] := by
  show natToDigitsGo (n + 1) n = _
  simp only [natToDigitsGo, if_neg (by omega : ¬n < 10)]
  unfold natToDigits
  rw [natToDigitsGo_fuel n (n / 10 + 1) (n / 10) (by omega) (by omega)]

theorem digitChar_isDigit (d : Nat) (h : d < 10) : (Nat.digitChar d).isDigit = true := by
  interval_cases d <;> decide

theorem digitChar_toNat (d : Nat) (h : d < 10) : (Nat.digitChar d).toNat - 48 = d := by
  interval_cases d <;> decide

theorem natToDigits_ne_nil (n : Nat) : natToDigits n ≠ [] := by
  by_cases h : n < 10
  · rw [natToDigits_lt_ten n h]
    simp
  · rw [natToDigits_ge_ten n (by omega)]
    simp

theorem natToDigits_all_digit (n : Nat) :
    ∀ c ∈ natToDigits n, c.isDigit = true := by
  induction n using Nat.strong_induction_on with
  | _ n ih =>
    by_cases h : n < 10
    · rw [natToDigits_lt_ten n h]
      intro c hc
      rw [List.mem_singleton.1 hc]
      exact digitChar_isDigit n h
    · rw [natToDigits_ge_ten n (by omega)]
      intro c hc
      rcases List.mem_append.1 hc with hc | hc
      · exact ih (n / 10) (by omega) c hc
      · rw [List.mem_singleton.1 hc]
        exact digitChar_isDigit (n % 10) (by omega)

theorem digitsToNatFrom_append (a : Nat) (xs ys : List Char) :
    digitsToNatFrom a (xs ++ ys) = digitsToNatFrom (digitsToNatFrom a xs) ys := by
  simp [digitsToNatFrom, List.foldl_append]

theorem digitsToNatFrom_natToDigits (a n : Nat) :
    digitsToNatFrom a (natToDigits n) = a * 10 ^ (natToDigits n).length + n := by
  induction n using Nat.strong_induction_on generalizing a with
  | _ n ih =>
    by_cases h : n < 10
    · rw [natToDigits_lt_ten n h]
      simp [digitsToNatFrom, digitChar_toNat n h]
    · rw [natToDigits_ge_ten n (by omega)]
      rw [digitsToNatFrom_append]
      rw [ih (n / 10) (by omega) a]
      simp only [digitsToNatFrom, List.foldl_cons, List.foldl_nil]
      rw [digitChar_toNat (n % 10) (by omega)]
      rw [List.length_append, List.length_singleton, pow_succ]
      have h10 : n / 10 * 10 + n % 10 = n := by omega
      calc (a * 10 ^ (natToDigits (n / 10)).length + n / 10) * 10 + n % 10
          = a * (10 ^ (natToDigits (n / 10)).length * 10) + (n / 10 * 10 + n % 10) := by
            ring
        _ = a * (10 ^ (natToDigits (n / 10)).length * 10) + n := by rw [h10]

theorem digitsToNat_natToDigits (n : Nat) : digitsToNat (natToDigits n) = n := by
  have h := digitsToNatFrom_natToDigits 0 n
  simpa [digitsToNat, digitsToNatFrom] using h

theorem natToDigits_injective (m n : Nat) (h : natToDigits m = natToDigits n) :
    m = n := by
  have := digitsToNat_natToDigits m
  rw [h, digitsToNat_natToDigits n] at this
  omega

/-- Characters treated as whitespace by Python 2 `str.strip()` and `int()`. -/
def pyIsSpace (c : Char) : Bool :=
  c = ' ' || c = '\t' || c = '\n' || c = '\x0b' || c = '\x0c' || c = '\r'

/-- Python `str.strip(chars)` semantics: remove characters satisfying `p` from
both ends of the string. -/
def stripBoth (p : Char → Bool) (s : List Char) : List Char :=
  ((s.dropWhile p).reverse.dropWhile p).reverse

/-- Python `str.strip()` (no argument): strip surrounding whitespace. -/
def pyStripWs (s : PyStr) : PyStr := stripBoth pyIsSpace s

/-- Python `str.strip(c)` for a single character `c`. -/
def stripChar (c : Char) (s : PyStr) : PyStr := stripBoth (fun x => x = c) s

/-- Python `int` applied to a string of pure decimal digits. -/
def pyIntDigits (ds : List Char) : Option Nat :=
  if ds ≠ [] ∧ ds.all Char.isDigit then some (digitsToNat ds) else none

/-- Python 2 `int(s)` for base 10: optional surrounding whitespace, an optional
single sign, then a nonempty run of decimal digits; anything else raises
`ValueError` (modelled as `none`). -/
def pyInt (s : PyStr) : Option Int :=
  match stripBoth pyIsSpace s with
  | [] => none
  | c :: cs =>
    if c = '+' then (pyIntDigits cs).map (fun n => (n : Int))
    else if c = '-' then (pyIntDigits cs).map (fun n => -(n : Int))
    else (pyIntDigits (c :: cs)).map (fun n => (n : Int))

/-- Zero-pad a digit string on the left to width `w`. -/
def padZeros (w : Nat) (s : List Char) : List Char :=
  List.replicate (w - s.length) '0' ++ s

/-- Python `"%03d" % i`: total width 3, zero padded, sign included in width. -/
def fmt03d (i : Int) : PyStr :=
  if i < 0 then '-' :: padZeros 2 (natToDigits i.natAbs)
  else padZeros 3 (natToDigits i.natAbs)

/-- Python `"%d" % i`. -/
def fmtD (i : Int) : PyStr :=
  if i < 0 then '-' :: natToDigits i.natAbs
  else natToDigits i.natAbs

theorem mem_natToDigits (n : Nat) (c : Char) (h : c ∈ natToDigits n) :
    ∃ d, d < 10 ∧ c = Nat.digitChar d := by
  induction n using Nat.strong_induction_on with
  | _ n ih =>
    by_cases hn : n < 10
    · rw [natToDigits_lt_ten n hn] at h
      exact ⟨n, hn, List.mem_singleton.1 h⟩
    · rw [natToDigits_ge_ten n (by omega)] at h
      rcases List.mem_append.1 h with h | h
      · exact ih (n / 10) (by omega) h
      · exact ⟨n % 10, by omega, List.mem_singleton.1 h⟩

theorem mem_padZeros (w : Nat) (s : List Char) (c : Char) (h : c ∈ padZeros w s) :
    c = '0' ∨ c ∈ s := by
  rcases List.mem_append.1 h with h | h
  · exact Or.inl (List.eq_of_mem_replicate h)
  · exact Or.inr h

/-- A character-level property that holds of every decimal digit holds of every
character of `padZeros w (natToDigits n)`. -/
theorem padZeros_natToDigits_prop (P : Char → Prop) (w n : Nat)
    (hP : ∀ d, d < 10 → P (Nat.digitChar d)) :
    ∀ c ∈ padZeros w (natToDigits n), P c := by
  intro c hc
  rcases mem_padZeros w (natToDigits n) c hc with h0 | hm
  · rw [h0]
    exact hP 0 (by omega)
  · rcases mem_natToDigits n c hm with ⟨d, hd, rfl⟩
    exact hP d hd

theorem dropWhile_of_forall_not (p : Char → Bool) (s : List Char)
    (h : ∀ c ∈ s, p c = false) : s.dropWhile p = s := by
  cases s with
  | nil => rfl
  | cons c cs => simp [List.dropWhile_cons, h c (by simp)]

theorem stripBoth_of_forall_not (p : Char → Bool) (s : List Char)
    (h : ∀ c ∈ s, p c = false) : stripBoth p s = s := by
  unfold stripBoth
  rw [dropWhile_of_forall_not p s h]
  rw [dropWhile_of_forall_not p s.reverse (fun c hc => h c (List.mem_reverse.1 hc))]
  exact List.reverse_reverse s

theorem digitsToNatFrom_replicate_zero (k : Nat) :
    digitsToNatFrom 0 (List.replicate k '0') = 0 := by
  induction k with
  | zero => rfl
  | succ m ih =>
    simp only [List.replicate_succ, digitsToNatFrom, List.foldl_cons]
    exact ih

theorem digitsToNat_padZeros (w : Nat) (ds : List Char) :
    digitsToNat (padZeros w ds) = digitsToNat ds := by
  show digitsToNatFrom 0 (List.replicate (w - ds.length) '0' ++ ds) = digitsToNat ds
  rw [digitsToNatFrom_append, digitsToNatFrom_replicate_zero]
  rfl

theorem pyInt_eq_of_strip (s : PyStr) (c : Char) (cs : List Char)
    (h : stripBoth pyIsSpace s = c :: cs) :
    pyInt s = if c = '+' then (pyIntDigits cs).map (fun n => (n : Int))
      else if c = '-' then (pyIntDigits cs).map (fun n => -(n : Int))
      else (pyIntDigits (c :: cs)).map (fun n => (n : Int)) := by
  unfold pyInt
  rw [h]

theorem pyInt_padZeros_natToDigits (w n : Nat) :
    pyInt (padZeros w (natToDigits n)) = some (n : Int) := by
  have hnospace : ∀ c ∈ padZeros w (natToDigits n), pyIsSpace c = false :=
    padZeros_natToDigits_prop (fun c => pyIsSpace c = false) w n
      (by intro d hd; interval_cases d <;> decide)
  have hdig : ∀ c ∈ padZeros w (natToDigits n), c.isDigit = true :=
    padZeros_natToDigits_prop (fun c => c.isDigit = true) w n
      (by intro d hd; interval_cases d <;> decide)
  have hsign : ∀ c ∈ padZeros w (natToDigits n), c ≠ '+' ∧ c ≠ '-' :=
    padZeros_natToDigits_prop (fun c => c ≠ '+' ∧ c ≠ '-') w n
      (by intro d hd; interval_cases d <;> decide)
  have hne : padZeros w (natToDigits n) ≠ [] := by
    unfold padZeros
    intro hemp
    rcases List.append_eq_nil.1 hemp with ⟨-, h2⟩
    exact natToDigits_ne_nil n h2
  cases hp : padZeros w (natToDigits n) with
  | nil => exact absurd hp hne
  | cons c cs =>
    rw [hp] at hnospace hdig hsign
    have hc := hsign c (by simp)
    rw [pyInt_eq_of_strip (c :: cs) c cs
      (stripBoth_of_forall_not pyIsSpace _ hnospace)]
    rw [if_neg hc.1, if_neg hc.2]
    have hpd : pyIntDigits (c :: cs) = some n := by
      unfold pyIntDigits
      rw [if_pos ⟨by simp, by
        rw [List.all_eq_true]
        intro x hx
        exact hdig x hx⟩]
      rw [← hp, digitsToNat_padZeros, digitsToNat_natToDigits]
    rw [hpd]
    rfl

theorem pyInt_natToDigits (n : Nat) : pyInt (natToDigits n) = some (n : Int) := by
  have h := pyInt_padZeros_natToDigits 0 n
  simpa [padZeros] using h

theorem fmt03d_ofNat (n : Nat) : fmt03d (n : Int) = padZeros 3 (natToDigits n) := by
  unfold fmt03d
  rw [if_neg (by omega : ¬(n : Int) < 0)]
  simp

theorem fmtD_ofNat (n : Nat) : fmtD (n : Int) = natToDigits n := by
  unfold fmtD
  rw [if_neg (by omega : ¬(n : Int) < 0)]
  simp

theorem pyInt_fmt03d_ofNat (n : Nat) : pyInt (fmt03d (n : Int)) = some (n : Int) := by
  rw [fmt03d_ofNat]
  exact pyInt_padZeros_natToDigits 3 n

theorem takeWhile_eq_self_of_forall (p : Char → Bool) (s : List Char)
    (h : ∀ c ∈ s, p c = true) : s.takeWhile p = s := by
  induction s with
  | nil => rfl
  | cons c cs ih =>
    rw [List.takeWhile_cons, if_pos (h c (by simp))]
    rw [ih (fun x hx => h x (by simp [hx]))]

theorem joinSep_append_of_ne_nil (sep : Char) (A B : List (List Char))
    (hA : A ≠ []) (hB : B ≠ []) :
    joinSep sep (A ++ B) = joinSep sep A ++ sep :: joinSep sep B := by
  induction A with
  | nil => exact absurd rfl hA
  | cons x xs ih =>
    cases xs with
    | nil =>
      rw [show ([x] : List (List Char)) ++ B = x :: B from rfl]
      rw [joinSep_cons sep x B hB]
      rfl
    | cons y ys =>
      rw [List.cons_append, joinSep_cons sep x ((y :: ys) ++ B) (by simp),
          joinSep_cons sep x (y :: ys) (by simp), ih (by simp)]
      simp

/-- Characters appearing in `fmt03d` of a nonnegative integer are digits, hence
none of them is the given character `bad`. -/
theorem fmt03d_ofNat_no_char (n : Nat) (bad : Char)
    (hbad : ∀ d, d < 10 → Nat.digitChar d ≠ bad) : bad ∉ fmt03d (n : Int) := by
  rw [fmt03d_ofNat]
  intro hmem
  have := padZeros_natToDigits_prop (fun c => c ≠ bad) 3 n hbad bad hmem
  exact this rfl

theorem fmtD_ofNat_no_char (n : Nat) (bad : Char)
    (hbad : ∀ d, d < 10 → Nat.digitChar d ≠ bad) : bad ∉ fmtD (n : Int) := by
  rw [fmtD_ofNat]
  intro hmem
  rcases mem_natToDigits n bad hmem with ⟨d, hd, hc⟩
  exact hbad d hd hc.symm

/-- Python `os.path.basename` (POSIX): the part after the last slash. -/
def basename (s : PyStr) : PyStr := (splitSep '/' s).getLastD []

/-- The Python code finds the first dot of the base name and keeps the part
before it (keeping everything when there is no dot). -/
def stripExt (s : PyStr) : PyStr := s.takeWhile (fun c => c != '.')

/-- The underscore-separated fields of a fastq base name (leading directory
path and extensions removed), as computed by `IlluminaFastq.__init__`. -/
def fastqFields (fastq : PyStr) : List PyStr :=
  splitSep '_' (stripExt (basename fastq))

theorem basename_of_no_slash (s : PyStr) (h : '/' ∉ s) : basename s = s := by
  unfold basename
  rw [splitSep_of_not_mem '/' s h]
  rfl

theorem stripExt_of_no_dot (s : PyStr) (h : '.' ∉ s) : stripExt s = s := by
  unfold stripExt
  apply takeWhile_eq_self_of_forall
  intro c hc
  have : c ≠ '.' := fun hcd => h (hcd ▸ hc)
  simpa using this

/-- Lean model of the `IlluminaFastq` objects built by `IlluminaData.py`:
`fastq` is the original name; the other fields are the values extracted by
`__init__`.  Lane, read and set numbers are Python ints, modelled as `Int`. -/
structure IlluminaFastq where
  fastq : PyStr
  sample_name : PyStr
  barcode_sequence : Option PyStr
  lane_number : Int
  read_number : Int
  set_number : Int
deriving DecidableEq

/-- Translation of `IlluminaFastq.__init__`: split the base name (path and
extension stripped) on underscores; `fields[-1]` is the set number,
`fields[-2][1]` the read number, `fields[-3][1:]` the lane number,
`fields[-4]` the barcode (`NoIndex` mapping to `None`), and the remaining
leading fields, rejoined with underscores, the sample name.  Any `IndexError`
or `ValueError` raised by Python is modelled as `none`. -/
def IlluminaFastq.init (fastq : PyStr) : Option IlluminaFastq :=
  let fields := fastqFields fastq
  (negIdx fields 1).bind (fun sTok =>
  (pyInt sTok).bind (fun set_number =>
  (negIdx fields 2).bind (fun rTok =>
  (rTok[1]?).bind (fun rChar =>
  (pyInt [rChar]).bind (fun read_number =>
  (negIdx fields 3).bind (fun lTok =>
  (pyInt (lTok.drop 1)).bind (fun lane_number =>
  (negIdx fields 4).bind (fun bTok =>
  some ⟨fastq, joinSep '_' (fields.take (fields.length - 4)),
        if bTok = pystr "NoIndex" then none else some bTok,
        lane_number, read_number, set_number⟩))))))))

/-- Translation of `IlluminaFastq.__repr__`:
`"%s_%s_L%03d_R%d_%03d" % (sample, barcode or NoIndex, lane, read, set)`. -/
def IlluminaFastq.repr (fq : IlluminaFastq) : PyStr :=
  fq.sample_name ++ '_' ::
    ((match fq.barcode_sequence with
      | none => pystr "NoIndex"
      | some b => b) ++ '_' ::
      ('L' :: fmt03d fq.lane_number ++ '_' ::
        ('R' :: fmtD fq.read_number ++ '_' :: fmt03d fq.set_number)))

/-- A filename following the convention
`<sampleName>_<barcodeOrNoIndex>_L<3-digit lane>_R<read>_<3-digit set>`
(no leading path, no extension), built from its components. -/
def mkFastqName (sample bc : PyStr) (lane read set_ : Nat) : PyStr :=
  sample ++ '_' ::
    (bc ++ '_' ::
      ('L' :: fmt03d (lane : Int) ++ '_' ::
        ('R' :: fmtD (read : Int) ++ '_' :: fmt03d (set_ : Int))))

/-- Syntactic validity of the components of a conventional fastq name: the
sample name and barcode carry no path separator and no dot (no leading path,
no extension), the lane and set numbers fit in their three-digit fields, and
the read number is a single digit. -/
def GoodFastqParts (sample bc : PyStr) (lane read set_ : Nat) : Prop :=
  '.' ∉ sample ∧ '/' ∉ sample ∧ '.' ∉ bc ∧ '/' ∉ bc ∧
    lane ≤ 999 ∧ read ≤ 9 ∧ set_ ≤ 999

theorem mem_mkFastqName (sample bc : PyStr) (lane read set_ : Nat) (c : Char)
    (hc : c ∈ mkFastqName sample bc lane read set_) :
    c ∈ sample ∨ c ∈ bc ∨ c = '_' ∨ c = 'L' ∨ c = 'R' ∨
      c ∈ fmt03d (lane : Int) ∨ c ∈ fmtD (read : Int) ∨ c ∈ fmt03d (set_ : Int) := by
  simp only [mkFastqName, List.mem_append, List.mem_cons] at hc
  tauto

theorem negIdx_four_1 {α : Type} (a b c d : α) : negIdx [a, b, c, d] 1 = some d := rfl

theorem negIdx_four_2 {α : Type} (a b c d : α) : negIdx [a, b, c, d] 2 = some c := rfl

theorem negIdx_four_3 {α : Type} (a b c d : α) : negIdx [a, b, c, d] 3 = some b := rfl

theorem negIdx_four_4 {α : Type} (a b c d : α) : negIdx [a, b, c, d] 4 = some a := rfl

/-- Core round-trip fact for the filename codec: parsing a conventional name
built from valid components succeeds, and formatting the parsed value returns
exactly the original string. -/
theorem fastq_roundtrip_core (sample bc : PyStr) (lane read set_ : Nat)
    (h : GoodFastqParts sample bc lane read set_) :
    ∃ fq, IlluminaFastq.init (mkFastqName sample bc lane read set_) = some fq ∧
      fq.repr = mkFastqName sample bc lane read set_ := by
  obtain ⟨hds, hss, hdb, hsb, hlane, hread, hset⟩ := h
  have hdig_us : ∀ d, d < 10 → Nat.digitChar d ≠ '_' := by
    intro d hd; interval_cases d <;> decide
  have hdig_dot : ∀ d, d < 10 → Nat.digitChar d ≠ '.' := by
    intro d hd; interval_cases d <;> decide
  have hdig_sl : ∀ d, d < 10 → Nat.digitChar d ≠ '/' := by
    intro d hd; interval_cases d <;> decide
  have hslash : '/' ∉ mkFastqName sample bc lane read set_ := by
    intro hm
    rcases mem_mkFastqName sample bc lane read set_ '/' hm with
      h | h | h | h | h | h | h | h
    · exact hss h
    · exact hsb h
    · exact absurd h (by decide)
    · exact absurd h (by decide)
    · exact absurd h (by decide)
    · exact fmt03d_ofNat_no_char lane '/' hdig_sl h
    · exact fmtD_ofNat_no_char read '/' hdig_sl h
    · exact fmt03d_ofNat_no_char set_ '/' hdig_sl h
  have hdot : '.' ∉ mkFastqName sample bc lane read set_ := by
    intro hm
    rcases mem_mkFastqName sample bc lane read set_ '.' hm with
      h | h | h | h | h | h | h | h
    · exact hds h
    · exact hdb h
    · exact absurd h (by decide)
    · exact absurd h (by decide)
    · exact absurd h (by decide)
    · exact fmt03d_ofNat_no_char lane '.' hdig_dot h
    · exact fmtD_ofNat_no_char read '.' hdig_dot h
    · exact fmt03d_ofNat_no_char set_ '.' hdig_dot h
  have hLt : '_' ∉ 'L' :: fmt03d (lane : Int) := by
    intro hm
    rcases List.mem_cons.1 hm with h | h
    · exact absurd h (by decide)
    · exact fmt03d_ofNat_no_char lane '_' hdig_us h
  have hRt : '_' ∉ 'R' :: fmtD (read : Int) := by
    intro hm
    rcases List.mem_cons.1 hm with h | h
    · exact absurd h (by decide)
    · exact fmtD_ofNat_no_char read '_' hdig_us h
  have hSt : '_' ∉ fmt03d (set_ : Int) := fun hm =>
    fmt03d_ofNat_no_char set_ '_' hdig_us hm
  have hBne : splitSep '_' bc ≠ [] := splitSep_ne_nil '_' bc
  have hSne : splitSep '_' sample ≠ [] := splitSep_ne_nil '_' sample
  obtain ⟨B', E, hB⟩ : ∃ B' E, splitSep '_' bc = B' ++ [E] :=
    ⟨(splitSep '_' bc).dropLast, (splitSep '_' bc).getLast hBne,
      (List.dropLast_append_getLast hBne).symm⟩
  have hfields : fastqFields (mkFastqName sample bc lane read set_) =
      (splitSep '_' sample ++ B') ++
        [E, 'L' :: fmt03d (lane : Int), 'R' :: fmtD (read : Int),
          fmt03d (set_ : Int)] := by
    unfold fastqFields
    rw [basename_of_no_slash _ hslash, stripExt_of_no_dot _ hdot]
    unfold mkFastqName
    rw [splitSep_append '_' sample, splitSep_append '_' bc,
        splitSep_append '_' ('L' :: fmt03d (lane : Int)),
        splitSep_append '_' ('R' :: fmtD (read : Int))]
    rw [splitSep_of_not_mem '_' _ hLt, splitSep_of_not_mem '_' _ hRt,
        splitSep_of_not_mem '_' _ hSt, hB]
    simp
  have hDne : splitSep '_' sample ++ B' ≠ [] := by
    intro hemp
    exact hSne (List.append_eq_nil.1 hemp).1
  have hset' : pyInt (fmt03d (set_ : Int)) = some (set_ : Int) :=
    pyInt_fmt03d_ofNat set_
  have hfD : fmtD (read : Int) = [Nat.digitChar read] := by
    rw [fmtD_ofNat, natToDigits_lt_ten read (by omega)]
  have hr2 : pyInt [Nat.digitChar read] = some (read : Int) := by
    rw [← natToDigits_lt_ten read (by omega)]
    exact pyInt_natToDigits read
  have hl' : pyInt (('L' :: fmt03d (lane : Int)).drop 1) = some (lane : Int) := by
    rw [List.drop_one, show ('L' :: fmt03d (lane : Int)).tail = fmt03d (lane : Int)
      from rfl]
    exact pyInt_fmt03d_ofNat lane
  have htake : ∀ (D : List PyStr) (w x y z : PyStr),
      (D ++ [w, x, y, z]).take ((D ++ [w, x, y, z]).length - 4) = D := by
    intro D w x y z
    rw [List.length_append, show ([w, x, y, z] : List PyStr).length = 4 from rfl,
      Nat.add_sub_cancel]
    exact List.take_left D _
  refine ⟨⟨mkFastqName sample bc lane read set_,
    joinSep '_' (splitSep '_' sample ++ B'),
    if E = pystr "NoIndex" then none else some E,
    (lane : Int), (read : Int), (set_ : Int)⟩, ?_, ?_⟩
  · unfold IlluminaFastq.init
    rw [hfields]
    dsimp only
    rw [negIdx_append _ _ 1 (by simp), negIdx_four_1]
    simp only [Option.bind]
    rw [hset']
    simp only [Option.bind]
    rw [negIdx_append _ _ 2 (by simp), negIdx_four_2]
    simp only [Option.bind]
    rw [hfD]
    simp only [List.getElem?_cons_succ, List.getElem?_cons_zero, Option.bind]
    rw [hr2]
    simp only [Option.bind]
    rw [negIdx_append _ _ 3 (by simp), negIdx_four_3]
    simp only [Option.bind]
    rw [hl']
    simp only [Option.bind]
    rw [negIdx_append _ _ 4 (by simp), negIdx_four_4]
    simp only [Option.bind]
    rw [htake]
  · have key : joinSep '_' (splitSep '_' sample ++ B') ++ '_' :: E =
        sample ++ '_' :: bc := by
      have h1 : joinSep '_' ((splitSep '_' sample ++ B') ++ [E]) =
          joinSep '_' (splitSep '_' sample ++ B') ++ '_' :: E :=
        joinSep_append_of_ne_nil '_' _ [E] hDne (by simp)
      have h2 : (splitSep '_' sample ++ B') ++ [E] =
          splitSep '_' sample ++ splitSep '_' bc := by
        rw [hB, List.append_assoc]
      have h3 : joinSep '_' (splitSep '_' sample ++ splitSep '_' bc) =
          sample ++ '_' :: bc := by
        rw [joinSep_append_of_ne_nil '_' _ _ hSne hBne, joinSep_splitSep,
          joinSep_splitSep]
      rw [← h1, h2, h3]
    show (IlluminaFastq.repr ⟨mkFastqName sample bc lane read set_,
        joinSep '_' (splitSep '_' sample ++ B'),
        if E = pystr "NoIndex" then none else some E,
        (lane : Int), (read : Int), (set_ : Int)⟩) =
      mkFastqName sample bc lane read set_
    unfold IlluminaFastq.repr
    by_cases hE : E = pystr "NoIndex"
    · rw [if_pos hE]
      show joinSep '_' (splitSep '_' sample ++ B') ++ '_' ::
          (pystr "NoIndex" ++ '_' :: ('L' :: fmt03d (lane : Int) ++ '_' ::
            ('R' :: fmtD (read : Int) ++ '_' :: fmt03d (set_ : Int)))) =
        mkFastqName sample bc lane read set_
      rw [← hE]
      rw [show ∀ (A e rest : PyStr), A ++ '_' :: (e ++ rest) =
        (A ++ '_' :: e) ++ rest from fun A e rest => by simp]
      rw [key]
      unfold mkFastqName
      simp
    · rw [if_neg hE]
      show joinSep '_' (splitSep '_' sample ++ B') ++ '_' ::
          (E ++ '_' :: ('L' :: fmt03d (lane : Int) ++ '_' ::
            ('R' :: fmtD (read : Int) ++ '_' :: fmt03d (set_ : Int)))) =
        mkFastqName sample bc lane read set_
      rw [show ∀ (A e rest : PyStr), A ++ '_' :: (e ++ rest) =
        (A ++ '_' :: e) ++ rest from fun A e rest => by simp]
      rw [key]
      unfold mkFastqName
      simp

/-- The escalating name templates of `get_unique_fastq_names`, in the order
tried by the code: `"NAME"`, `"NAME LANE"`, `"NAME TAG"`, `"NAME TAG LANE"`,
`"FULL"`. -/
inductive Template where
  | NAME
  | NAME_LANE
  | NAME_TAG
  | NAME_TAG_LANE
  | FULL
deriving DecidableEq

/-- The components requested by a non-`FULL` template, rendered in the fixed
order `NAME, TAG, LANE` (`TAG` is omitted when the barcode is `None`). -/
def templateParts (t : Template) (fq : IlluminaFastq) : List PyStr :=
  match t with
  | .NAME => [fq.sample_name]
  | .NAME_LANE => [fq.sample_name, 'L' :: fmt03d fq.lane_number]
  | .NAME_TAG =>
    match fq.barcode_sequence with
    | none => [fq.sample_name]
    | some b => [fq.sample_name, b]
  | .NAME_TAG_LANE =>
    match fq.barcode_sequence with
    | none => [fq.sample_name, 'L' :: fmt03d fq.lane_number]
    | some b => [fq.sample_name, b, 'L' :: fmt03d fq.lane_number]
  | .FULL => []

/-- Rendering of one fastq under a template, as in the per-file body of the
template loop of `get_unique_fastq_names`: the requested components (the full
canonical form for `FULL`), plus `R<read>` for paired-end sets (not for
`FULL`), joined with underscores, plus the literal extension `.fastq.gz`. -/
def renderTemplate (paired : Bool) (t : Template) (fq : IlluminaFastq) : PyStr :=
  (match t with
   | .FULL => fq.repr
   | _ =>
     joinSep '_' (templateParts t fq ++
       (if paired then ['R' :: fmtD fq.read_number] else []))) ++ pystr ".fastq.gz"

/-- The inner loop of `get_unique_fastq_names` for one template: walk the
(already parsed) fastq list; a rendering not yet in `seen` adds a mapping
entry and is appended to `seen`, a repeated rendering adds nothing. -/
def buildMapping (paired : Bool) (t : Template) :
    List (PyStr × IlluminaFastq) → List PyStr →
      List (PyStr × PyStr) × List PyStr
  | [], seen => ([], seen)
  | p :: rest, seen =>
    if renderTemplate paired t p.2 ∈ seen then buildMapping paired t rest seen
    else
      ((p.1, renderTemplate paired t p.2) ::
          (buildMapping paired t rest (seen ++ [renderTemplate paired t p.2])).1,
        (buildMapping paired t rest (seen ++ [renderTemplate paired t p.2])).2)

/-- The outer loop of `get_unique_fastq_names`: try each template in turn;
accept the first whose number of distinct renderings equals the number of
input names; raise (`none`) if no template is accepted. -/
def tryTemplates (paired : Bool) (n : Nat) :
    List Template → List (PyStr × IlluminaFastq) → Option (List (PyStr × PyStr))
  | [], _ => none
  | t :: ts, l =>
    if (buildMapping paired t l []).2.length = n then some (buildMapping paired t l []).1
    else tryTemplates paired n ts l

/-- Parse every fastq name in order, failing (as the Python loop raises) at
the first name `IlluminaFastq.__init__` rejects. -/
def parseAll : List PyStr → Option (List (PyStr × IlluminaFastq))
  | [] => some []
  | f :: fs =>
    match IlluminaFastq.init f with
    | none => none
    | some fq => (parseAll fs).map (fun l => (f, fq) :: l)

/-- Translation of `get_unique_fastq_names`: parse all names, determine the
set-wide paired-end flag (some file has read number 1 and some has read
number 2), then try the templates `NAME`, `NAME LANE`, `NAME TAG`,
`NAME TAG LANE`, `FULL` in order.  Exceptions (an unparsable name, or no
accepted template) are modelled as `none`. -/
def get_unique_fastq_names (fastqs : List PyStr) : Option (List (PyStr × PyStr)) :=
  (parseAll fastqs).bind (fun l =>
    tryTemplates
      ((l.any fun p => p.2.read_number = 1) && (l.any fun p => p.2.read_number = 2))
      fastqs.length
      [Template.NAME, Template.NAME_LANE, Template.NAME_TAG,
        Template.NAME_TAG_LANE, Template.FULL] l)

theorem buildMapping_seen_le (paired : Bool) (t : Template)
    (l : List (PyStr × IlluminaFastq)) (seen : List PyStr) :
    (buildMapping paired t l seen).2.length ≤ seen.length + l.length := by
  induction l generalizing seen with
  | nil => simp [buildMapping]
  | cons p rest ih =>
    by_cases hmem : renderTemplate paired t p.2 ∈ seen
    · simp only [buildMapping, if_pos hmem]
      have := ih seen
      simp only [List.length_cons]
      omega
    · simp only [buildMapping, if_neg hmem]
      have := ih (seen ++ [renderTemplate paired t p.2])
      simp only [List.length_append, List.length_singleton, List.length_cons,
        List.length_nil] at this ⊢
      omega

/-- If a template is accepted (as many distinct renderings as inputs), its
mapping has one entry per input, in order, with pairwise distinct values, and
none of its values was in the initial `seen` list. -/
theorem buildMapping_accept (paired : Bool) (t : Template)
    (l : List (PyStr × IlluminaFastq)) (seen : List PyStr)
    (h : (buildMapping paired t l seen).2.length = seen.length + l.length) :
    (buildMapping paired t l seen).1.map Prod.fst = l.map Prod.fst ∧
      ((buildMapping paired t l seen).1.map Prod.snd).Nodup ∧
      ∀ x ∈ (buildMapping paired t l seen).1.map Prod.snd, x ∉ seen := by
  induction l generalizing seen with
  | nil => simp [buildMapping]
  | cons p rest ih =>
    by_cases hmem : renderTemplate paired t p.2 ∈ seen
    · exfalso
      rw [show buildMapping paired t (p :: rest) seen =
        buildMapping paired t rest seen from by
          simp only [buildMapping, if_pos hmem]] at h
      have := buildMapping_seen_le paired t rest seen
      simp only [List.length_cons] at h
      omega
    · have hstep1 : (buildMapping paired t (p :: rest) seen).1 =
          (p.1, renderTemplate paired t p.2) ::
            (buildMapping paired t rest (seen ++ [renderTemplate paired t p.2])).1 := by
        simp only [buildMapping, if_neg hmem]
      have hstep2 : (buildMapping paired t (p :: rest) seen).2 =
          (buildMapping paired t rest (seen ++ [renderTemplate paired t p.2])).2 := by
        simp only [buildMapping, if_neg hmem]
      rw [hstep2] at h
      have hlen : (buildMapping paired t rest
          (seen ++ [renderTemplate paired t p.2])).2.length =
          (seen ++ [renderTemplate paired t p.2]).length + rest.length := by
        simp only [List.length_append, List.length_singleton, List.length_cons,
          List.length_nil] at h ⊢
        omega
      obtain ⟨ih1, ih2, ih3⟩ := ih (seen ++ [renderTemplate paired t p.2]) hlen
      rw [hstep1]
      refine ⟨by simp [ih1], ?_, ?_⟩
      · rw [List.map_cons, List.nodup_cons]
        refine ⟨?_, ih2⟩
        intro hin
        have := ih3 _ hin
        simp at this
      · intro x hx
        rcases List.mem_cons.1 hx with rfl | hx
        · exact hmem
        · intro hxs
          exact ih3 x hx (by simp [hxs])

/-- When all renderings are fresh and pairwise distinct, the inner loop keeps
them all. -/
theorem buildMapping_seen_of_nodup (paired : Bool) (t : Template)
    (l : List (PyStr × IlluminaFastq)) (seen : List PyStr)
    (h : (seen ++ l.map (fun p => renderTemplate paired t p.2)).Nodup) :
    (buildMapping paired t l seen).2 =
      seen ++ l.map (fun p => renderTemplate paired t p.2) := by
  induction l generalizing seen with
  | nil => simp [buildMapping]
  | cons p rest ih =>
    have hmem : renderTemplate paired t p.2 ∉ seen := by
      rcases List.nodup_append.1 h with ⟨-, -, hdisj⟩
      intro hin
      exact hdisj hin (List.mem_cons_self _ _)
    rw [show buildMapping paired t (p :: rest) seen =
        ((p.1, renderTemplate paired t p.2) ::
          (buildMapping paired t rest (seen ++ [renderTemplate paired t p.2])).1,
        (buildMapping paired t rest (seen ++ [renderTemplate paired t p.2])).2) from by
      simp only [buildMapping, if_neg hmem]]
    have hnd : ((seen ++ [renderTemplate paired t p.2]) ++
        rest.map (fun p => renderTemplate paired t p.2)).Nodup := by
      rw [← List.append_cons]
      simpa using h
    have := ih (seen ++ [renderTemplate paired t p.2]) hnd
    rw [this, ← List.append_cons]
    simp

theorem tryTemplates_sound (paired : Bool) (ts : List Template)
    (l : List (PyStr × IlluminaFastq)) (m : List (PyStr × PyStr))
    (h : tryTemplates paired l.length ts l = some m) :
    m.map Prod.fst = l.map Prod.fst ∧ (m.map Prod.snd).Nodup := by
  induction ts with
  | nil => simp [tryTemplates] at h
  | cons t ts' ih =>
    by_cases hc : (buildMapping paired t l []).2.length = l.length
    · rw [show tryTemplates paired l.length (t :: ts') l =
        some (buildMapping paired t l []).1 from by
          simp only [tryTemplates, if_pos hc]] at h
      obtain rfl := Option.some_injective _ h.symm
      have := buildMapping_accept paired t l [] (by simpa using hc)
      exact ⟨this.1, this.2.1⟩
    · rw [show tryTemplates paired l.length (t :: ts') l =
        tryTemplates paired l.length ts' l from by
          simp only [tryTemplates, if_neg hc]] at h
      exact ih h

theorem tryTemplates_full_some (paired : Bool) (ts : List Template)
    (l : List (PyStr × IlluminaFastq))
    (hfull : Template.FULL ∈ ts)
    (hnd : (l.map (fun p => renderTemplate paired Template.FULL p.2)).Nodup) :
    ∃ m, tryTemplates paired l.length ts l = some m := by
  induction ts with
  | nil => simp at hfull
  | cons t ts' ih =>
    by_cases hc : (buildMapping paired t l []).2.length = l.length
    · exact ⟨(buildMapping paired t l []).1, by simp only [tryTemplates, if_pos hc]⟩
    · rcases List.mem_cons.1 hfull with rfl | hfull'
      · exfalso
        apply hc
        rw [buildMapping_seen_of_nodup paired Template.FULL l [] (by simpa using hnd)]
        simp
      · rw [show tryTemplates paired l.length (t :: ts') l =
          tryTemplates paired l.length ts' l from by
            simp only [tryTemplates, if_neg hc]]
        exact ih hfull'

theorem parseAll_some (fs : List PyStr)
    (h : ∀ f ∈ fs, (IlluminaFastq.init f).isSome) :
    ∃ l, parseAll fs = some l := by
  induction fs with
  | nil => exact ⟨[], rfl⟩
  | cons f fs' ih =>
    obtain ⟨fq, hfq⟩ := Option.isSome_iff_exists.1 (h f (by simp))
    obtain ⟨l', hl'⟩ := ih (fun x hx => h x (by simp [hx]))
    exact ⟨(f, fq) :: l', by simp [parseAll, hfq, hl']⟩

theorem parseAll_spec (fs : List PyStr) (l : List (PyStr × IlluminaFastq))
    (h : parseAll fs = some l) :
    l.map Prod.fst = fs ∧ ∀ p ∈ l, IlluminaFastq.init p.1 = some p.2 := by
  induction fs generalizing l with
  | nil =>
    simp only [parseAll, Option.some_inj] at h
    subst h
    simp
  | cons f fs' ih =>
    simp only [parseAll] at h
    cases hfq : IlluminaFastq.init f with
    | none => rw [hfq] at h; simp at h
    | some fq =>
      rw [hfq] at h
      cases hl' : parseAll fs' with
      | none => rw [hl'] at h; simp at h
      | some l' =>
        rw [hl'] at h
        have h2 : (f, fq) :: l' = l := by simpa using h
        subst h2
        obtain ⟨ih1, ih2⟩ := ih l' hl'
        refine ⟨by simp [ih1], ?_⟩
        intro p hp
        rcases List.mem_cons.1 hp with rfl | hp
        · exact hfq
        · exact ih2 p hp

/-- A filename is syntactically valid for the fastq naming convention when it
is built by `mkFastqName` from components satisfying `GoodFastqParts`. -/
def ValidFastqName (f : PyStr) : Prop :=
  ∃ sample bc lane read set_, GoodFastqParts sample bc lane read set_ ∧
    f = mkFastqName sample bc lane read set_

theorem valid_init_repr (f : PyStr) (hf : ValidFastqName f) :
    ∃ fq, IlluminaFastq.init f = some fq ∧ fq.repr = f := by
  obtain ⟨sample, bc, lane, read, set_, hgood, rfl⟩ := hf
  exact fastq_roundtrip_core sample bc lane read set_ hgood

/-- Core fact for unique-alias totality: on pairwise distinct, syntactically
valid names, `get_unique_fastq_names` succeeds with exactly one entry per
input (in input order) and pairwise distinct alias values. -/
theorem get_unique_fastq_names_core (fastqs : List PyStr) (hnd : fastqs.Nodup)
    (hval : ∀ f ∈ fastqs, ValidFastqName f) :
    ∃ m, get_unique_fastq_names fastqs = some m ∧
      m.map Prod.fst = fastqs ∧ (m.map Prod.snd).Nodup := by
  have hsome : ∀ f ∈ fastqs, (IlluminaFastq.init f).isSome := by
    intro f hf
    obtain ⟨fq, hfq, -⟩ := valid_init_repr f (hval f hf)
    simp [hfq]
  obtain ⟨l, hl⟩ := parseAll_some fastqs hsome
  obtain ⟨hfst, hmem⟩ := parseAll_spec fastqs l hl
  have hrepr : ∀ p ∈ l, p.2.repr = p.1 := by
    intro p hp
    obtain ⟨fq, hfq, hr⟩ := valid_init_repr p.1
      (hval p.1 (hfst ▸ List.mem_map_of_mem Prod.fst hp))
    rw [hmem p hp] at hfq
    obtain rfl := Option.some_injective _ hfq
    exact hr
  have hfullmap : l.map (fun p => renderTemplate false Template.FULL p.2) =
      fastqs.map (fun f => f ++ pystr ".fastq.gz") := by
    rw [← hfst, List.map_map]
    apply List.map_congr_left
    intro p hp
    show p.2.repr ++ pystr ".fastq.gz" = p.1 ++ pystr ".fastq.gz"
    rw [hrepr p hp]
  have hfullnd : ∀ paired : Bool,
      (l.map (fun p => renderTemplate paired Template.FULL p.2)).Nodup := by
    intro paired
    have : (l.map (fun p => renderTemplate paired Template.FULL p.2)) =
        fastqs.map (fun f => f ++ pystr ".fastq.gz") := hfullmap
    rw [this]
    exact hnd.map (fun a b hab => by simpa using hab)
  have hlen : fastqs.length = l.length := by
    rw [← hfst, List.length_map]
  unfold get_unique_fastq_names
  rw [hl]
  simp only [Option.bind]
  rw [hlen]
  obtain ⟨m, hm⟩ := tryTemplates_full_some
    ((l.any fun p => p.2.read_number = 1) && (l.any fun p => p.2.read_number = 2))
    [Template.NAME, Template.NAME_LANE, Template.NAME_TAG,
      Template.NAME_TAG_LANE, Template.FULL] l (by simp) (hfullnd _)
  obtain ⟨hs1, hs2⟩ := tryTemplates_sound _ _ l m hm
  exact ⟨m, hm, by rw [hs1, hfst], hs2⟩

/-- One row of the canonical CASAVA sample sheet (the 10 columns of
`CasavaSampleSheet`).  All fields are strings except `Lane`, which the
underlying `TabFile` presents as an integer. -/
structure CasavaRow where
  FCID : PyStr
  Lane : Int
  SampleID : PyStr
  SampleRef : PyStr
  Index : PyStr
  Description : PyStr
  Control : PyStr
  Recipe : PyStr
  Operator : PyStr
  SampleProject : PyStr
deriving DecidableEq

/-- The identity tuple used by `duplicated_names`:
`(SampleID, SampleProject, Index, Lane)`. -/
def identityOf (r : CasavaRow) : PyStr × PyStr × PyStr × Int :=
  (r.SampleID, r.SampleProject, r.Index, r.Lane)

/-- The set of characters `CasavaSampleSheet` forbids in `SampleID` and
`SampleProject` (the Python string literal
`"?()[]/\=+<>:;\"',*^|&. \t"`, in which the backslash stands for itself). -/
def illegal_characters : List Char := pystr "?()[]/\\=+<>:;\"',*^|&. \t"

/-- Whether a row appears in `CasavaSampleSheet.illegal_names`: some
illegal character occurs in its `SampleID` or its `SampleProject`. -/
def rowIllegal (r : CasavaRow) : Bool :=
  illegal_characters.any
    (fun c => 0 < r.SampleID.count c || 0 < r.SampleProject.count c)

/-- Python `str.replace(c, d)` for single characters. -/
def pyReplaceChar (c d : Char) (s : PyStr) : PyStr :=
  s.map (fun x => if x = c then d else x)

/-- One step of `fix_illegal_names` for one forbidden character `c`:
`s.strip().replace(c, "_").strip("_")`. -/
def fixNameStep (c : Char) (s : PyStr) : PyStr :=
  stripChar '_' (pyReplaceChar c '_' (pyStripWs s))

/-- The full per-field repair of `fix_illegal_names`: the repair step applied
for each forbidden character in order. -/
def fixName (s : PyStr) : PyStr :=
  illegal_characters.foldl (fun acc c => fixNameStep c acc) s

/-- The mutation `fix_illegal_names` performs on one flagged row: repair
`SampleID` and `SampleProject` (the Python loop interleaves the two fields per
character, but the two are independent strings, so the effect is two
independent folds). -/
def fixRowIllegal (r : CasavaRow) : CasavaRow :=
  ⟨r.FCID, r.Lane, fixName r.SampleID, r.SampleRef, r.Index, r.Description,
    r.Control, r.Recipe, r.Operator, fixName r.SampleProject⟩

/-- Translation of `CasavaSampleSheet.fix_illegal_names`: the rows flagged by
`illegal_names` (computed before any mutation) are repaired in place; the
others are untouched. -/
def fix_illegal_names (rows : List CasavaRow) : List CasavaRow :=
  rows.map (fun r => if rowIllegal r then fixRowIllegal r else r)

theorem mem_stripBoth (p : Char → Bool) (s : List Char) (x : Char)
    (h : x ∈ stripBoth p s) : x ∈ s := by
  unfold stripBoth at h
  rw [List.mem_reverse] at h
  have h1 := (List.dropWhile_sublist (l := (s.dropWhile p).reverse) p).mem h
  rw [List.mem_reverse] at h1
  exact (List.dropWhile_sublist p).mem h1

theorem mem_pyReplaceChar (c d : Char) (s : PyStr) (x : Char)
    (h : x ∈ pyReplaceChar c d s) : (x ∈ s ∧ x ≠ c) ∨ x = d := by
  unfold pyReplaceChar at h
  rcases List.mem_map.1 h with ⟨y, hy, hxy⟩
  by_cases hyc : y = c
  · right
    rw [← hxy, hyc]
    simp
  · left
    rw [← hxy]
    simp only [if_neg hyc]
    exact ⟨hy, hyc⟩

theorem mem_fixNameStep (c : Char) (s : PyStr) (x : Char)
    (h : x ∈ fixNameStep c s) : (x ∈ s ∧ x ≠ c) ∨ x = '_' := by
  unfold fixNameStep at h
  have h1 := mem_stripBoth _ _ _ h
  rcases mem_pyReplaceChar c '_' (pyStripWs s) x h1 with ⟨hmem, hne⟩ | hus
  · exact Or.inl ⟨mem_stripBoth _ _ _ hmem, hne⟩
  · exact Or.inr hus

theorem foldl_fixName_no_new (rest : List Char) (s : PyStr) (x : Char)
    (hx : x ∉ s) (hx' : x ≠ '_') :
    x ∉ rest.foldl (fun acc c => fixNameStep c acc) s := by
  induction rest generalizing s with
  | nil => exact hx
  | cons c cs ih =>
    rw [List.foldl_cons]
    apply ih
    intro hmem
    rcases mem_fixNameStep c s x hmem with ⟨hin, -⟩ | hus
    · exact hx hin
    · exact hx' hus

theorem fixName_removes (cs : List Char) (s : PyStr) (hus : '_' ∉ cs) :
    ∀ x ∈ cs, x ∉ cs.foldl (fun acc c => fixNameStep c acc) s := by
  induction cs generalizing s with
  | nil => simp
  | cons c rest ih =>
    intro x hx
    rw [List.foldl_cons]
    rcases List.mem_cons.1 hx with rfl | hx'
    · apply foldl_fixName_no_new
      · intro hmem
        rcases mem_fixNameStep x s x hmem with ⟨-, hne⟩ | husx
        · exact hne rfl
        · exact hus (husx ▸ hx)
      · intro husx
        exact hus (husx ▸ hx)
    · exact ih (fixNameStep c s) (fun h => hus (by simp [h])) x hx'

theorem fixName_no_illegal (s : PyStr) :
    ∀ x ∈ illegal_characters, x ∉ fixName s := by
  have hus : '_' ∉ illegal_characters := by decide
  exact fixName_removes illegal_characters s hus

theorem count_pos_decide_iff (l : List Char) (c : Char) :
    decide (0 < l.count c) = true ↔ c ∈ l := by
  rw [decide_eq_true_eq]
  exact List.count_pos_iff

theorem rowIllegal_iff (r : CasavaRow) :
    rowIllegal r = true ↔
      ∃ c ∈ illegal_characters, c ∈ r.SampleID ∨ c ∈ r.SampleProject := by
  unfold rowIllegal
  rw [List.any_eq_true]
  constructor
  · rintro ⟨c, hc, hor⟩
    rw [Bool.or_eq_true, count_pos_decide_iff, count_pos_decide_iff] at hor
    exact ⟨c, hc, hor⟩
  · rintro ⟨c, hc, hor⟩
    refine ⟨c, hc, ?_⟩
    rw [Bool.or_eq_true, count_pos_decide_iff, count_pos_decide_iff]
    exact hor

theorem fixRowIllegal_SampleID (r : CasavaRow) :
    (fixRowIllegal r).SampleID = fixName r.SampleID := by
  simp only [fixRowIllegal]

theorem fixRowIllegal_SampleProject (r : CasavaRow) :
    (fixRowIllegal r).SampleProject = fixName r.SampleProject := by
  simp only [fixRowIllegal]

theorem rowIllegal_fixRowIllegal (r : CasavaRow) :
    rowIllegal (fixRowIllegal r) = false := by
  rw [Bool.eq_false_iff]
  intro htrue
  rcases (rowIllegal_iff _).1 htrue with ⟨c, hc, hmem⟩
  rw [fixRowIllegal_SampleID, fixRowIllegal_SampleProject] at hmem
  rcases hmem with h | h
  · exact fixName_no_illegal r.SampleID c hc h
  · exact fixName_no_illegal r.SampleProject c hc h

/-- Applying the illegal-name repair twice is the same as applying it once. -/
theorem fix_illegal_names_idem (rows : List CasavaRow) :
    fix_illegal_names (fix_illegal_names rows) = fix_illegal_names rows := by
  unfold fix_illegal_names
  rw [List.map_map]
  apply List.map_congr_left
  intro r hr
  show (fun r => if rowIllegal r = true then fixRowIllegal r else r)
      ((fun r => if rowIllegal r = true then fixRowIllegal r else r) r) =
    (fun r => if rowIllegal r = true then fixRowIllegal r else r) r
  by_cases h : rowIllegal r = true
  · simp [h, rowIllegal_fixRowIllegal r]
  · simp [h]

/-- Keys of the grouping dictionary of `duplicated_names`. -/
abbrev RowKey := PyStr × PyStr × PyStr × Int

/-- The grouping loop of `CasavaSampleSheet.duplicated_names`: build a
dictionary from identity tuple to the list of rows carrying it (rows in table
order).  Python 2 dictionaries do not specify an iteration order; this model
keeps keys in first-insertion order, which is one refinement of that
unspecified order (see the discussion at `duplicated_names`). -/
def groupRows : List CasavaRow → List (RowKey × List CasavaRow) →
    List (RowKey × List CasavaRow)
  | [], acc => acc
  | r :: rest, acc =>
    if acc.any (fun p => p.1 = identityOf r) then
      groupRows rest (acc.map (fun p =>
        if p.1 = identityOf r then (p.1, p.2 ++ [r]) else p))
    else groupRows rest (acc ++ [(identityOf r, [r])])

/-- Translation of the `duplicated_names` property: group the rows by
`(SampleID, SampleProject, Index, Lane)` and return the groups of more than
one row.  The source iterates a Python 2 `dict`, whose key order is
implementation-defined; the model uses first-insertion order for the groups.
Rows inside each group are in table order exactly as in the source. -/
def duplicated_names (rows : List CasavaRow) : List (List CasavaRow) :=
  ((groupRows rows []).filter (fun p => 1 < p.2.length)).map Prod.snd

/-- First occurrence of each value, in first-occurrence order. -/
def firstKeys {α : Type} [DecidableEq α] : List α → List α
  | [] => []
  | k :: ks => k :: (firstKeys ks).filter (fun x => x ≠ k)

/-- Declarative description of the grouping dictionary: one entry per distinct
identity (in first-occurrence order), holding the rows with that identity in
table order. -/
def groupOf (rows : List CasavaRow) : List (RowKey × List CasavaRow) :=
  (firstKeys (rows.map identityOf)).map
    (fun k => (k, rows.filter (fun r => identityOf r = k)))

theorem mem_firstKeys {α : Type} [DecidableEq α] (l : List α) (x : α) :
    x ∈ firstKeys l ↔ x ∈ l := by
  induction l with
  | nil => simp [firstKeys]
  | cons k ks ih =>
    simp only [firstKeys, List.mem_cons, List.mem_filter]
    by_cases hx : x = k
    · simp [hx]
    · simp [hx, ih]

theorem firstKeys_nodup {α : Type} [DecidableEq α] (l : List α) :
    (firstKeys l).Nodup := by
  induction l with
  | nil => simp [firstKeys]
  | cons k ks ih =>
    simp only [firstKeys, List.nodup_cons]
    refine ⟨?_, ih.filter _⟩
    intro hmem
    have := (List.mem_filter.1 hmem).2
    simp at this

theorem firstKeys_cons {α : Type} [DecidableEq α] (k : α) (ks : List α) :
    firstKeys (k :: ks) = k :: (firstKeys ks).filter (fun x => x ≠ k) := rfl

theorem firstKeys_snoc_not_mem {α : Type} [DecidableEq α] (l : List α) (k : α)
    (h : k ∉ l) : firstKeys (l ++ [k]) = firstKeys l ++ [k] := by
  induction l with
  | nil => simp [firstKeys]
  | cons a l ih =>
    simp only [List.mem_cons, not_or] at h
    rw [List.cons_append, firstKeys_cons, ih h.2, List.filter_append,
      firstKeys_cons]
    rw [List.filter_cons_of_pos (by simp [h.1]), List.filter_nil]
    simp

theorem firstKeys_snoc_mem {α : Type} [DecidableEq α] (l : List α) (k : α)
    (h : k ∈ l) : firstKeys (l ++ [k]) = firstKeys l := by
  induction l with
  | nil => simp at h
  | cons a l ih =>
    rcases List.mem_cons.1 h with rfl | hmem
    · by_cases hk : k ∈ l
      · rw [List.cons_append, firstKeys_cons, ih hk, firstKeys_cons]
      · rw [List.cons_append, firstKeys_cons, firstKeys_snoc_not_mem l k hk,
          List.filter_append, firstKeys_cons]
        rw [List.filter_cons_of_neg (by simp), List.filter_nil, List.append_nil]
    · rw [List.cons_append, firstKeys_cons, ih hmem, firstKeys_cons]

theorem filter_length_le_one_of_nodup_map (l : List CasavaRow) (k : RowKey)
    (h : (l.map identityOf).Nodup) :
    (l.filter (fun r => identityOf r = k)).length ≤ 1 := by
  induction l with
  | nil => simp
  | cons r rest ih =>
    rw [List.map_cons, List.nodup_cons] at h
    by_cases hr : identityOf r = k
    · rw [List.filter_cons_of_pos (by simp [hr])]
      have hrest : rest.filter (fun r => identityOf r = k) = [] := by
        rw [List.filter_eq_nil_iff]
        intro x hx
        simp only [decide_eq_true_eq]
        intro hxk
        exact h.1 (List.mem_map.2 ⟨x, hx, by rw [hxk, hr]⟩)
      rw [hrest]
      simp
    · rw [List.filter_cons_of_neg (by simp [hr])]
      exact ih h.2

theorem groupOf_any_iff (done : List CasavaRow) (k : RowKey) :
    (groupOf done).any (fun p => p.1 = k) = true ↔ k ∈ done.map identityOf := by
  unfold groupOf
  rw [List.any_eq_true]
  constructor
  · rintro ⟨p, hp, hh⟩
    rcases List.mem_map.1 hp with ⟨k', hk', rfl⟩
    simp only [decide_eq_true_eq] at hh
    have hk'k : k' = k := hh
    rw [← hk'k]
    exact (mem_firstKeys _ _).1 hk'
  · intro hk
    exact ⟨(k, done.filter fun r => identityOf r = k),
      List.mem_map.2 ⟨k, (mem_firstKeys _ _).2 hk, rfl⟩, by simp⟩

theorem groupOf_snoc_mem (done : List CasavaRow) (r : CasavaRow)
    (h : identityOf r ∈ done.map identityOf) :
    groupOf (done ++ [r]) = (groupOf done).map (fun p =>
      if p.1 = identityOf r then (p.1, p.2 ++ [r]) else p) := by
  unfold groupOf
  rw [List.map_append, show [r].map identityOf = [identityOf r] from rfl,
    firstKeys_snoc_mem _ _ h, List.map_map]
  apply List.map_congr_left
  intro k hk
  simp only [Function.comp]
  by_cases hkr : k = identityOf r
  · rw [if_pos hkr, List.filter_append]
    rw [List.filter_cons_of_pos (by simp [hkr]), List.filter_nil]
  · rw [if_neg hkr, List.filter_append]
    rw [List.filter_cons_of_neg (by simp; intro hc; exact hkr hc.symm),
      List.filter_nil, List.append_nil]

theorem groupOf_snoc_not_mem (done : List CasavaRow) (r : CasavaRow)
    (h : identityOf r ∉ done.map identityOf) :
    groupOf (done ++ [r]) = groupOf done ++ [(identityOf r, [r])] := by
  unfold groupOf
  rw [List.map_append, show [r].map identityOf = [identityOf r] from rfl,
    firstKeys_snoc_not_mem _ _ h, List.map_append]
  congr 1
  · apply List.map_congr_left
    intro k hk
    have hkmem : k ∈ done.map identityOf := (mem_firstKeys _ _).1 hk
    have hkr : identityOf r ≠ k := fun hc => h (hc ▸ hkmem)
    rw [List.filter_append, List.filter_cons_of_neg (by simp [hkr]),
      List.filter_nil, List.append_nil]
  · have hnil : done.filter (fun x => identityOf x = identityOf r) = [] := by
      rw [List.filter_eq_nil_iff]
      intro x hx
      simp only [decide_eq_true_eq]
      intro hc
      exact h (List.mem_map.2 ⟨x, hx, hc⟩)
    simp only [List.map_cons, List.map_nil, List.filter_append, hnil]
    rw [List.filter_cons_of_pos (by simp), List.filter_nil]
    rfl

theorem groupRows_groupOf (rest : List CasavaRow) :
    ∀ done, groupRows rest (groupOf done) = groupOf (done ++ rest) := by
  induction rest with
  | nil => intro done; simp [groupRows]
  | cons r rest ih =>
    intro done
    by_cases hmem : identityOf r ∈ done.map identityOf
    · rw [show groupRows (r :: rest) (groupOf done) =
        groupRows rest ((groupOf done).map (fun p =>
          if p.1 = identityOf r then (p.1, p.2 ++ [r]) else p)) from by
        simp only [groupRows, if_pos ((groupOf_any_iff done (identityOf r)).2 hmem)]]
      rw [← groupOf_snoc_mem done r hmem, ih (done ++ [r]), List.append_assoc]
      rfl
    · rw [show groupRows (r :: rest) (groupOf done) =
        groupRows rest (groupOf done ++ [(identityOf r, [r])]) from by
        simp only [groupRows]
        rw [if_neg (by
          intro hc
          exact hmem ((groupOf_any_iff done (identityOf r)).1 hc))]]
      rw [← groupOf_snoc_not_mem done r hmem, ih (done ++ [r]), List.append_assoc]
      rfl

theorem groupRows_eq_groupOf (rows : List CasavaRow) :
    groupRows rows [] = groupOf rows := by
  have h := groupRows_groupOf rows []
  simpa [groupOf, firstKeys] using h

theorem filter_map_pair {α β : Type} (l : List α) (f : α → β) (p : β → Bool) :
    (l.map f).filter p = (l.filter (fun x => p (f x))).map f := by
  induction l with
  | nil => rfl
  | cons a l ih =>
    rw [List.map_cons, List.filter_cons, List.filter_cons]
    by_cases h : p (f a) <;> simp [h, ih]

/-- Declarative form of `duplicated_names`: the identities with more than one
row (in first-occurrence order), each sent to its rows in table order. -/
theorem duplicated_names_eq (rows : List CasavaRow) :
    duplicated_names rows =
      ((firstKeys (rows.map identityOf)).filter
        (fun k => 1 < (rows.filter (fun r => identityOf r = k)).length)).map
      (fun k => rows.filter (fun r => identityOf r = k)) := by
  unfold duplicated_names
  rw [groupRows_eq_groupOf]
  unfold groupOf
  rw [filter_map_pair, List.map_map]
  rfl

theorem duplicated_names_nil_of_nodup (rows : List CasavaRow)
    (h : (rows.map identityOf).Nodup) : duplicated_names rows = [] := by
  rw [duplicated_names_eq]
  rw [show (firstKeys (rows.map identityOf)).filter
      (fun k => 1 < (rows.filter (fun r => identityOf r = k)).length) = [] from by
    rw [List.filter_eq_nil_iff]
    intro k hk
    simp only [decide_eq_true_eq]
    intro hlt
    have := filter_length_le_one_of_nodup_map rows k h
    omega]
  rfl

/-- The renaming `fix_duplicated_names` applies to the row at position `i`
(0-based) of a duplicate group: `SampleID` becomes
`"%s_%d" % (SampleID, i + 1)`. -/
def suffixRow (r : CasavaRow) (i : Nat) : CasavaRow :=
  ⟨r.FCID, r.Lane, r.SampleID ++ '_' :: natToDigits (i + 1), r.SampleRef,
    r.Index, r.Description, r.Control, r.Recipe, r.Operator, r.SampleProject⟩

/-- Positional engine of `fix_duplicated_names`.  The Python code computes
`duplicated_names` once, then for each group mutates the row at group
position `i` with the `_<i+1>` suffix.  The groups list, for each identity
occurring more than once, exactly the rows with that identity in table order;
so a row is mutated iff its identity occurs more than once in the table, and
its group position is the number of earlier rows with the same identity.
`all` is the whole (original) table and `pre` the rows before the current
one; both stay fixed at the original rows because the repair is computed from
the pre-mutation grouping. -/
def fixRowsGo (all : List CasavaRow) : List CasavaRow → List CasavaRow →
    List CasavaRow
  | _, [] => []
  | pre, r :: rest =>
    (if 1 < (all.filter (fun x => identityOf x = identityOf r)).length then
      suffixRow r ((pre.filter (fun x => identityOf x = identityOf r)).length)
     else r) :: fixRowsGo all (pre ++ [r]) rest

/-- Translation of `CasavaSampleSheet.fix_duplicated_names` (see
`fixRowsGo`). -/
def fix_duplicated_names (rows : List CasavaRow) : List CasavaRow :=
  fixRowsGo rows [] rows

/-- The expected shape of a repaired duplicate group: the row at position `i`
(0-based, counting from `c`) suffixed with `_<i+1>`. -/
def suffixSeq : List CasavaRow → Nat → List CasavaRow
  | [], _ => []
  | r :: rest, c => suffixRow r c :: suffixSeq rest (c + 1)

/-- The identity tuple of a group row after its `_<i+1>` repair. -/
def suffKey (t : RowKey) (i : Nat) : RowKey :=
  (t.1 ++ '_' :: natToDigits (i + 1), t.2)

theorem identityOf_suffixRow (r : CasavaRow) (i : Nat) :
    identityOf (suffixRow r i) = suffKey (identityOf r) i := by
  simp only [identityOf, suffixRow, suffKey]

theorem suffixSeq_append (x y : List CasavaRow) :
    ∀ c, suffixSeq (x ++ y) c = suffixSeq x c ++ suffixSeq y (c + x.length) := by
  induction x with
  | nil => intro c; simp [suffixSeq]
  | cons r x ih =>
    intro c
    rw [List.cons_append]
    show suffixRow r c :: suffixSeq (x ++ y) (c + 1) = _
    rw [ih (c + 1)]
    simp only [suffixSeq, List.cons_append, List.length_cons]
    rw [show c + 1 + x.length = c + (x.length + 1) from by omega]

theorem suffixSeq_length (x : List CasavaRow) : ∀ c, (suffixSeq x c).length = x.length := by
  induction x with
  | nil => intro c; rfl
  | cons r x ih =>
    intro c
    show (suffixRow r c :: suffixSeq x (c + 1)).length = _
    simp [ih (c + 1)]

theorem suffixSeq_map_id (t : RowKey) (x : List CasavaRow)
    (hall : ∀ r ∈ x, identityOf r = t) :
    ∀ c, (suffixSeq x c).map identityOf =
      (List.range' c x.length).map (suffKey t) := by
  induction x with
  | nil => intro c; rfl
  | cons r x ih =>
    intro c
    show identityOf (suffixRow r c) :: (suffixSeq x (c + 1)).map identityOf = _
    rw [identityOf_suffixRow, hall r (by simp),
      ih (fun y hy => hall y (by simp [hy])) (c + 1)]
    rw [List.length_cons, List.range'_succ, List.map_cons]

theorem fixRowsGo_append (all : List CasavaRow) (x y : List CasavaRow) :
    ∀ pre, fixRowsGo all pre (x ++ y) =
      fixRowsGo all pre x ++ fixRowsGo all (pre ++ x) y := by
  induction x with
  | nil => intro pre; simp [fixRowsGo]
  | cons r x ih =>
    intro pre
    rw [List.cons_append]
    show _ :: fixRowsGo all (pre ++ [r]) (x ++ y) = _
    rw [ih (pre ++ [r])]
    show _ = _ :: (fixRowsGo all (pre ++ [r]) x ++ fixRowsGo all (pre ++ r :: x) y)
    rw [List.append_assoc]
    rfl

theorem fixRowsGo_all_key (all : List CasavaRow) (t : RowKey)
    (hcnt : 1 < (all.filter (fun x => identityOf x = t)).length)
    (u : List CasavaRow) (hall : ∀ r ∈ u, identityOf r = t) :
    ∀ pre, fixRowsGo all pre u =
      suffixSeq u (pre.filter (fun x => identityOf x = t)).length := by
  induction u with
  | nil => intro pre; rfl
  | cons r u ih =>
    intro pre
    have hr : identityOf r = t := hall r (by simp)
    show (if 1 < (all.filter (fun x => identityOf x = identityOf r)).length then
        suffixRow r ((pre.filter (fun x => identityOf x = identityOf r)).length)
      else r) :: fixRowsGo all (pre ++ [r]) u = _
    rw [hr]
    rw [if_pos hcnt]
    rw [ih (fun y hy => hall y (by simp [hy])) (pre ++ [r])]
    show _ = suffixRow r ((pre.filter (fun x => identityOf x = t)).length) ::
      suffixSeq u ((pre.filter (fun x => identityOf x = t)).length + 1)
    rw [List.filter_append, List.filter_cons_of_pos (by simp [hr]),
      List.filter_nil, List.length_append, List.length_singleton]

theorem fixRowsGo_single_not_dup (all : List CasavaRow) (d : CasavaRow)
    (hcnt : ¬1 < (all.filter (fun x => identityOf x = identityOf d)).length)
    (pre : List CasavaRow) (rest : List CasavaRow) :
    fixRowsGo all pre (d :: rest) = d :: fixRowsGo all (pre ++ [d]) rest := by
  show (if 1 < (all.filter (fun x => identityOf x = identityOf d)).length then _
    else d) :: _ = _
  rw [if_neg hcnt]

theorem count_one_decomp (rows : List CasavaRow) (t' : RowKey)
    (h1 : (rows.filter (fun r => identityOf r = t')).length = 1) :
    ∃ u d v, rows = u ++ d :: v ∧ identityOf d = t' ∧
      (∀ r ∈ u, identityOf r ≠ t') ∧ (∀ r ∈ v, identityOf r ≠ t') := by
  induction rows with
  | nil => simp at h1
  | cons r rest ih =>
    by_cases hr : identityOf r = t'
    · rw [List.filter_cons_of_pos (by simp [hr])] at h1
      have h0 : (rest.filter (fun r => identityOf r = t')).length = 0 := by
        simpa using h1
      have hrest := List.filter_eq_nil_iff.1 (List.length_eq_zero.1 h0)
      refine ⟨[], r, rest, by simp, hr, by simp, ?_⟩
      intro x hx hxk
      have hn := hrest x hx
      simp only [decide_eq_true_eq] at hn
      exact hn hxk
    · rw [List.filter_cons_of_neg (by simp [hr])] at h1
      obtain ⟨u, d, v, hsplit, hd, hu, hv⟩ := ih h1
      refine ⟨r :: u, d, v, by simp [hsplit], hd, ?_, hv⟩
      intro x hx
      rcases List.mem_cons.1 hx with rfl | hx
      · exact hr
      · exact hu x hx

theorem suffKey_inj (t : RowKey) (i j : Nat) (h : suffKey t i = suffKey t j) :
    i = j := by
  unfold suffKey at h
  have h1 := congrArg Prod.fst h
  simp only at h1
  have h2 := List.append_cancel_left h1
  have h3 : natToDigits (i + 1) = natToDigits (j + 1) := by
    injection h2
  have := natToDigits_injective (i + 1) (j + 1) h3
  omega

theorem filter_decomp_t (u v : List CasavaRow) (d : CasavaRow) (t t' : RowKey)
    (hu : ∀ r ∈ u, identityOf r = t) (hv : ∀ r ∈ v, identityOf r = t)
    (hd : identityOf d = t') (hne : t ≠ t') :
    (u ++ d :: v).filter (fun r => identityOf r = t) = u ++ v := by
  rw [List.filter_append,
    List.filter_cons_of_neg (by
      simp only [hd, decide_eq_true_eq]
      exact fun hc => hne hc.symm),
    List.filter_eq_self.2 (fun a ha => by simp [hu a ha]),
    List.filter_eq_self.2 (fun a ha => by simp [hv a ha])]

theorem filter_decomp_t' (u v : List CasavaRow) (d : CasavaRow) (t' : RowKey)
    (hu' : ∀ r ∈ u, identityOf r ≠ t') (hv' : ∀ r ∈ v, identityOf r ≠ t')
    (hd : identityOf d = t') :
    (u ++ d :: v).filter (fun r => identityOf r = t') = [d] := by
  rw [List.filter_append, List.filter_cons_of_pos (by simp [hd]),
    List.filter_eq_nil_iff.2 (fun a ha => by
      simp only [decide_eq_true_eq]
      exact hu' a ha),
    List.filter_eq_nil_iff.2 (fun a ha => by
      simp only [decide_eq_true_eq]
      exact hv' a ha)]
  rfl

theorem filter_keys_single (keys : List RowKey) (t t' : RowKey) (q : RowKey → Bool)
    (hnd : keys.Nodup) (hkeys : ∀ k ∈ keys, k = t ∨ k = t')
    (hqt : q t = true) (hqt' : q t' = false) (htmem : t ∈ keys) :
    keys.filter q = [t] := by
  have hall : ∀ k ∈ keys.filter q, k = t := by
    intro k hk
    rcases List.mem_filter.1 hk with ⟨hk1, hk2⟩
    rcases hkeys k hk1 with rfl | rfl
    · rfl
    · rw [hqt'] at hk2
      simp at hk2
  have htin : t ∈ keys.filter q := List.mem_filter.2 ⟨htmem, hqt⟩
  have hndf : (keys.filter q).Nodup := hnd.filter q
  cases hcase : keys.filter q with
  | nil =>
    rw [hcase] at htin
    simp at htin
  | cons a l' =>
    have ha : a = t := hall a (by rw [hcase]; simp)
    have hl' : l' = [] := by
      rw [List.eq_nil_iff_forall_not_mem]
      intro x hx
      have hx1 : x = t := hall x (by rw [hcase]; simp [hx])
      rw [hcase] at hndf
      rcases List.nodup_cons.1 hndf with ⟨hnin, -⟩
      exact hnin (by rw [ha, ← hx1]; exact hx)
    rw [ha, hl']

/-- Core facts behind the duplicate-detection and duplicate-repair claims, for
a table of `N` rows with one identity `t` plus a single row with a different
identity `tt`: detection returns exactly the group of `t`-rows (in table
order); and provided none of the repaired names collides with the identity of
the distinct row, the repair removes all duplicates and suffixes the group
rows positionally. -/
theorem duplicates_core (rows : List CasavaRow) (t tt : RowKey) (N : Nat)
    (hmem : ∀ r ∈ rows, identityOf r = t ∨ identityOf r = tt)
    (hne : t ≠ tt)
    (hNcnt : (rows.filter (fun r => identityOf r = t)).length = N)
    (hN2 : 2 ≤ N)
    (h1 : (rows.filter (fun r => identityOf r = tt)).length = 1) :
    duplicated_names rows = [rows.filter (fun r => identityOf r = t)] ∧
    ((∀ i, i < N → tt ≠ suffKey t i) →
      duplicated_names (fix_duplicated_names rows) = [] ∧
      ((rows.zip (fix_duplicated_names rows)).filter
          (fun p => identityOf p.1 = t)).map Prod.snd =
        suffixSeq (rows.filter (fun r => identityOf r = t)) 0) := by
  obtain ⟨u, d, v, rfl, hd, hu', hv'⟩ := count_one_decomp rows tt h1
  have hu : ∀ r ∈ u, identityOf r = t := fun r hr =>
    (hmem r (by simp [hr])).resolve_right (hu' r hr)
  have hv : ∀ r ∈ v, identityOf r = t := fun r hr =>
    (hmem r (by simp [hr])).resolve_right (hv' r hr)
  have hft : (u ++ d :: v).filter (fun r => identityOf r = t) = u ++ v :=
    filter_decomp_t u v d t tt hu hv hd hne
  have hft' : (u ++ d :: v).filter (fun r => identityOf r = tt) = [d] :=
    filter_decomp_t' u v d tt hu' hv' hd
  have hlen : u.length + v.length = N := by
    rw [← hNcnt, hft, List.length_append]
  have htmem : t ∈ (u ++ d :: v).map identityOf := by
    have hfne : (u ++ d :: v).filter (fun r => identityOf r = t) ≠ [] := by
      intro hnil
      rw [hnil] at hNcnt
      simp at hNcnt
      omega
    rcases List.exists_mem_of_ne_nil _ hfne with ⟨r, hr⟩
    rcases List.mem_filter.1 hr with ⟨hr1, hr2⟩
    simp only [decide_eq_true_eq] at hr2
    exact List.mem_map.2 ⟨r, hr1, hr2⟩
  have hdup1 : duplicated_names (u ++ d :: v) =
      [(u ++ d :: v).filter (fun r => identityOf r = t)] := by
    rw [duplicated_names_eq]
    rw [filter_keys_single (firstKeys ((u ++ d :: v).map identityOf)) t tt _
      (firstKeys_nodup _)
      (by
        intro k hk
        rcases List.mem_map.1 ((mem_firstKeys _ _).1 hk) with ⟨r, hr, rfl⟩
        exact hmem r hr)
      (by
        simp only [decide_eq_true_eq, hft, List.length_append]
        omega)
      (by
        simp only [hft']
        simp)
      ((mem_firstKeys _ _).2 htmem)]
    rfl
  refine ⟨hdup1, ?_⟩
  intro hnc
  have hcnt_t : 1 < ((u ++ d :: v).filter (fun x => identityOf x = t)).length := by
    rw [hft, List.length_append]
    omega
  have hfix1 : fixRowsGo (u ++ d :: v) [] u = suffixSeq u 0 := by
    rw [fixRowsGo_all_key (u ++ d :: v) t hcnt_t u hu []]
    rfl
  have hfilud : (u ++ [d]).filter (fun x => identityOf x = t) = u := by
    rw [List.filter_append,
      List.filter_cons_of_neg (by
        simp only [hd, decide_eq_true_eq]
        exact fun hc => hne hc.symm),
      List.filter_nil, List.append_nil,
      List.filter_eq_self.2 (fun a ha => by simp [hu a ha])]
  have hfix2 : fixRowsGo (u ++ d :: v) (u ++ [d]) v = suffixSeq v u.length := by
    rw [fixRowsGo_all_key (u ++ d :: v) t hcnt_t v hv (u ++ [d])]
    rw [hfilud]
  have hcnt_d : ¬1 < ((u ++ d :: v).filter
      (fun x => identityOf x = identityOf d)).length := by
    simp only [hd]
    rw [hft']
    simp
  have hfix : fix_duplicated_names (u ++ d :: v) =
      suffixSeq u 0 ++ d :: suffixSeq v u.length := by
    unfold fix_duplicated_names
    rw [fixRowsGo_append (u ++ d :: v) u (d :: v) [], hfix1]
    rw [show ([] : List CasavaRow) ++ u = u from rfl]
    rw [fixRowsGo_single_not_dup (u ++ d :: v) d hcnt_d u v, hfix2]
  have hids : (suffixSeq u 0 ++ d :: suffixSeq v u.length).map identityOf =
      (List.range' 0 u.length).map (suffKey t) ++
        tt :: (List.range' u.length v.length).map (suffKey t) := by
    rw [List.map_append, List.map_cons, suffixSeq_map_id t u hu 0,
      suffixSeq_map_id t v hv u.length, hd]
  have hinj : Function.Injective (suffKey t) := fun i j hij => suffKey_inj t i j hij
  have hnodup : ((suffixSeq u 0 ++ d :: suffixSeq v u.length).map identityOf).Nodup := by
    rw [hids]
    rw [List.nodup_append]
    refine ⟨(List.nodup_range' _ _).map hinj, ?_, ?_⟩
    · rw [List.nodup_cons]
      refine ⟨?_, (List.nodup_range' _ _).map hinj⟩
      intro hmem'
      rcases List.mem_map.1 hmem' with ⟨i, hi, hti⟩
      rcases List.mem_range'_1.1 hi with ⟨hi1, hi2⟩
      exact hnc i (by omega) hti.symm
    · intro x hxA hxB
      rcases List.mem_map.1 hxA with ⟨i, hi, rfl⟩
      rcases List.mem_range'_1.1 hi with ⟨-, hi2⟩
      rcases List.mem_cons.1 hxB with hxt | hxB
      · exact hnc i (by omega) hxt.symm
      · rcases List.mem_map.1 hxB with ⟨j, hj, hji⟩
        rcases List.mem_range'_1.1 hj with ⟨hj1, -⟩
        have := hinj hji.symm
        omega
  refine ⟨?_, ?_⟩
  · rw [hfix]
    exact duplicated_names_nil_of_nodup _ hnodup
  · rw [hfix, hft]
    have hzip : (u ++ d :: v).zip (suffixSeq u 0 ++ d :: suffixSeq v u.length) =
        u.zip (suffixSeq u 0) ++ (d, d) :: v.zip (suffixSeq v u.length) := by
      rw [List.zip_append (by rw [suffixSeq_length])]
      rfl
    rw [hzip, List.filter_append,
      List.filter_cons_of_neg (by
        simp only [hd, decide_eq_true_eq]
        exact fun hc => hne hc.symm),
      List.filter_eq_self.2 (fun p hp => by
        simp only [decide_eq_true_eq]
        exact hu p.1 (List.of_mem_zip hp).1),
      List.filter_eq_self.2 (fun p hp => by
        simp only [decide_eq_true_eq]
        exact hv p.1 (List.of_mem_zip hp).1)]
    rw [List.map_append,
      List.map_snd_zip u (suffixSeq u 0) (by rw [suffixSeq_length]),
      List.map_snd_zip v (suffixSeq v u.length) (by rw [suffixSeq_length]),
      suffixSeq_append u v 0]
    rw [Nat.zero_add]

/-- Python `str.startswith(pre)`. -/
def startsWith (pre s : PyStr) : Bool := decide (s.take pre.length = pre)

/-- Python `str.count(c)` for a single character. -/
def countChar (c : Char) (s : PyStr) : Nat := s.count c

/-- Python `str.strip(chr(34))` as applied to every sample-sheet field. -/
def stripQuotes (s : PyStr) : PyStr := stripBoth (fun x => x = '"') s

/-- Modelled from the spec: `bcf_utils.extract_initials` is not part of this
repository snapshot.  The specification describes the fallback project name
as the uppercased initials of the sample name, and the conversion tests in
this module map `PB1 ↦ PB` and `ID2 ↦ ID`; accordingly the model takes the
leading alphabetic characters, uppercased. -/
def extract_initials (s : PyStr) : PyStr :=
  (s.takeWhile (fun c => c.isAlpha)).map Char.toUpper

/-- Modelled from the spec: `TabFile` row access `line[name]` for the
delimited table of the sectioned dialect ("a delimited table whose first line
is its header").  A missing column is a `KeyError` (`none`). -/
def rowLookup (hdr vals : List PyStr) (name : PyStr) : Option PyStr :=
  (hdr.findIdx? (fun h => h = name)).bind (fun i => vals[i]?)

/-- The lane of a converted sectioned-dialect row: the source `Lane` field if
that column exists, else 1 (no-lane instruments).  The underlying `TabFile`
presents a numeric cell as an integer; a present but non-numeric lane cell is
outside the behaviour the claims exercise and is modelled as a failure. -/
def sectionedLane (hdr vals : List PyStr) : Option Int :=
  match rowLookup hdr vals (pystr "Lane") with
  | some s => pyInt s
  | none => some 1

/-- The index tag of a converted sectioned-dialect row, from the fallback
chain of the source: `"%s-%s" % (index, index2)` when both exist, `index`
alone when `index2` is missing, empty when there is no index column. -/
def sectionedIndex (hdr vals : List PyStr) : PyStr :=
  match rowLookup hdr vals (pystr "index"),
      rowLookup hdr vals (pystr "index2") with
  | some i1, some i2 => i1 ++ '-' :: i2
  | some i1, none => i1
  | none, _ => []

/-- Translation of the per-row body of the sectioned-dialect loop of
`get_casava_sample_sheet`: build a canonical row with the default FCID, the
lane, the index tag, `Sample_ID`, `Description`, and `SampleProject` from
`Sample_Project` (or, when that is empty, the initials of `Sample_ID`); a
`KeyError` on `Sample_ID`, `Description` or `Sample_Project` aborts the whole
conversion.  Fields never assigned stay at the empty defaults of
`CasavaSampleSheet.append`. -/
def mapSectionedRow (fcid : PyStr) (hdr vals : List PyStr) : Option CasavaRow :=
  (sectionedLane hdr vals).bind (fun lane =>
  (rowLookup hdr vals (pystr "Sample_ID")).bind (fun sid =>
  (rowLookup hdr vals (pystr "Description")).bind (fun desc =>
  (rowLookup hdr vals (pystr "Sample_Project")).bind (fun sp =>
  some ⟨fcid, lane, sid, [], sectionedIndex hdr vals, desc, [], [], [],
    if sp = [] then extract_initials sid else sp⟩))))

/-- The `[Data]`-hunting loop of `get_casava_sample_sheet`:
`while not line.startswith(chr(91) ++ "Data" ++ chr(93)): line = readline()`.
Consumes lines until one starts with `[Data]` and returns the rest; `none`
means the stream ran out, in which case the Python loop never terminates
(`readline` returns the empty string at EOF forever, and the empty string
does not start with `[Data]`). -/
def findData : List PyStr → Option (List PyStr)
  | [] => none
  | l :: ls => if startsWith (pystr "[Data]") l then some ls else findData ls

/-- Result of `get_casava_sample_sheet`: a sheet, an exception, or the
non-termination of the `[Data]` hunt. -/
inductive SheetResult where
  | ok (rows : List CasavaRow)
  | error
  | hang
deriving DecidableEq

/-- Conversion of the data lines of the sectioned dialect (spec-modelled
`TabFile` parsing: comma-split rows under the comma-split header, values
quote-stripped; a row of the wrong width is a row-shape error). -/
def convertSectioned (fcid : PyStr) (hdr : List PyStr) :
    List PyStr → Option (List CasavaRow)
  | [] => some []
  | line :: rest =>
    if (splitSep ',' line).length = hdr.length then
      (mapSectionedRow fcid hdr ((splitSep ',' line).map stripQuotes)).bind
        (fun row => (convertSectioned fcid hdr rest).map (row :: ·))
    else none

/-- The sectioned ("Experimental Manager") branch of
`get_casava_sample_sheet`: hunt for `[Data]`, use the next line as the data
header, convert every following line. -/
def sectionedBranch (fcid : PyStr) (rest : List PyStr) : SheetResult :=
  match findData rest with
  | none => SheetResult.hang
  | some [] => SheetResult.ok []
  | some (hdrLine :: dataLines) =>
    match convertSectioned fcid (splitSep ',' hdrLine) dataLines with
    | none => SheetResult.error
    | some rows => SheetResult.ok rows

/-- One row of the already-canonical (flat) dialect: the ten comma-separated
fields, quote-stripped, with the integer lane (spec-modelled
`CasavaSampleSheet.append(tabdata=...)`: "the text must split exactly into
the 10 positional fields"). -/
def rowFromFields (fs : List PyStr) : Option CasavaRow :=
  match fs with
  | [a, b, c, d, e, f, g, h, i, j] =>
    (pyInt b).map (fun lane => ⟨a, lane, c, d, e, f, g, h, i, j⟩)
  | _ => none

/-- The flat branch of `get_casava_sample_sheet`: copy rows through, skipping
a row whose first field starts with `#` or whose rendered text strips to
nothing. -/
def convertFlat : List PyStr → Option (List CasavaRow)
  | [] => some []
  | line :: rest =>
    if startsWith (pystr "#") (((splitSep ',' line).map stripQuotes).headD [])
        || decide (pyStripWs (joinSep ','
            ((splitSep ',' line).map stripQuotes)) = []) then
      convertFlat rest
    else
      (rowFromFields ((splitSep ',' line).map stripQuotes)).bind
        (fun row => (convertFlat rest).map (row :: ·))

/-- Wrapper returning the flat branch as a `SheetResult`. -/
def flatBranch (rest : List PyStr) : SheetResult :=
  match convertFlat rest with
  | none => SheetResult.error
  | some rows => SheetResult.ok rows

/-- Translation of `get_casava_sample_sheet` on a stream of lines.  The first
line is read once: `[Header]` selects the sectioned branch; otherwise a line
containing a comma selects the flat branch; otherwise the function raises
(the format is not recognised). -/
def get_casava_sample_sheet (fcid : PyStr) (lines : List PyStr) : SheetResult :=
  if startsWith (pystr "[Header]") (lines.headD []) then
    sectionedBranch fcid lines.tail
  else if 0 < countChar ',' (lines.headD []) then flatBranch lines.tail
  else SheetResult.error

/-- Rendered text of a canonical row (`str(line)` of the comma-delimited
`TabDataLine`): the ten fields joined with commas. -/
def renderRow (r : CasavaRow) : PyStr :=
  joinSep ',' [r.FCID, fmtD r.Lane, r.SampleID, r.SampleRef, r.Index,
    r.Description, r.Control, r.Recipe, r.Operator, r.SampleProject]

/-- The comment-removal loop of `CasavaSampleSheet.__init__`:
`for i, line in enumerate(self): if str(line).startswith(chr(35)): del self[i]`.
Python list iteration keeps a cursor that advances after every step even when
the current element was deleted (so the element sliding into the deleted slot
is never examined).  `fuel` only bounds the structural recursion; it starts
at the list length, which the cursor can never exceed. -/
def removeCommentedGo : Nat → List CasavaRow → Nat → List CasavaRow
  | 0, lst, _ => lst
  | fuel + 1, lst, k =>
    if h : k < lst.length then
      if startsWith (pystr "#") (renderRow (lst.get ⟨k, h⟩)) then
        removeCommentedGo fuel (lst.eraseIdx k) (k + 1)
      else removeCommentedGo fuel lst (k + 1)
    else lst

/-- Comment removal as executed over the freshly parsed sheet. -/
def removeCommented (lst : List CasavaRow) : List CasavaRow :=
  removeCommentedGo lst.length lst 0

/-- Parsing of the data lines of a sample sheet in canonical format
(spec-modelled `TabFile` with `delimiter=','` and the ten fixed column
names): each line must split into exactly ten fields; every field is
quote-stripped. -/
def parseSheetRows : List PyStr → Option (List CasavaRow)
  | [] => some []
  | line :: rest =>
    (rowFromFields ((splitSep ',' line).map stripQuotes)).bind (fun row =>
      (parseSheetRows rest).map (row :: ·))

/-- Translation of `CasavaSampleSheet.__init__` reading from a stream: skip
the header line, parse the rows, strip double quotes from every value, then
run the comment-removal loop. -/
def casavaSheetFromLines (lines : List PyStr) : Option (List CasavaRow) :=
  (parseSheetRows lines.tail).map removeCommented

theorem splitSep_joinSep_of (sep : Char) (parts : List (List Char))
    (hne : parts ≠ []) (hcl : ∀ p ∈ parts, sep ∉ p) :
    splitSep sep (joinSep sep parts) = parts := by
  induction parts with
  | nil => exact absurd rfl hne
  | cons x xs ih =>
    cases xs with
    | nil =>
      rw [show joinSep sep [x] = x from rfl]
      exact splitSep_of_not_mem sep x (hcl x (by simp))
    | cons y ys =>
      rw [joinSep_cons sep x (y :: ys) (by simp)]
      rw [splitSep_append sep x (joinSep sep (y :: ys))]
      rw [splitSep_of_not_mem sep x (hcl x (by simp))]
      rw [ih (by simp) (fun p hp => hcl p (by simp [hp]))]
      rfl

theorem findData_append (A : List PyStr) (d : PyStr) (B : List PyStr)
    (hA : ∀ l ∈ A, startsWith (pystr "[Data]") l = false)
    (hd : startsWith (pystr "[Data]") d = true) :
    findData (A ++ d :: B) = some B := by
  induction A with
  | nil =>
    rw [List.nil_append]
    unfold findData
    rw [hd]
    rfl
  | cons a A ih =>
    rw [List.cons_append]
    unfold findData
    rw [hA a (by simp)]
    exact ih (fun l hl => hA l (by simp [hl]))

theorem negIdx_some_le {α : Type} (xs : List α) (k : Nat) (a : α)
    (h : negIdx xs k = some a) : k ≤ xs.length := by
  unfold negIdx at h
  by_cases hk : k ≤ xs.length
  · exact hk
  · rw [if_neg hk] at h
    simp at h

theorem negIdx_none_lt {α : Type} (xs : List α) (k : Nat) (hk : 1 ≤ k)
    (h : negIdx xs k = none) : xs.length < k := by
  unfold negIdx at h
  by_cases hle : k ≤ xs.length
  · rw [if_pos hle] at h
    rw [List.getElem?_eq_none_iff] at h
    omega
  · omega

/-- The malformed-name condition for the filename codec: fewer than four
underscore-separated fields, or a set field that is not an integer, or a read
field lacking an integer second character, or a lane field whose tail after
the first character is not an integer. -/
def malformedFastqName (s : PyStr) : Bool :=
  decide ((fastqFields s).length < 4) ||
  (match negIdx (fastqFields s) 1 with
   | none => true
   | some sTok => (pyInt sTok).isNone) ||
  (match negIdx (fastqFields s) 2 with
   | none => true
   | some rTok =>
     match rTok[1]? with
     | none => true
     | some c => (pyInt [c]).isNone) ||
  (match negIdx (fastqFields s) 3 with
   | none => true
   | some lTok => (pyInt (lTok.drop 1)).isNone)

theorem init_none_iff_malformed (s : PyStr) :
    IlluminaFastq.init s = none ↔ malformedFastqName s = true := by
  unfold IlluminaFastq.init malformedFastqName
  cases h1 : negIdx (fastqFields s) 1 with
  | none => simp [h1, Option.bind]
  | some sTok =>
    cases h2 : pyInt sTok with
    | none => simp [h1, h2, Option.bind]
    | some setN =>
      cases h3 : negIdx (fastqFields s) 2 with
      | none => simp [h1, h2, h3, Option.bind]
      | some rTok =>
        cases h4 : rTok[1]? with
        | none => simp [h1, h2, h3, h4, Option.bind]
        | some c =>
          cases h5 : pyInt [c] with
          | none => simp [h1, h2, h3, h4, h5, Option.bind]
          | some readN =>
            cases h6 : negIdx (fastqFields s) 3 with
            | none => simp [h1, h2, h3, h4, h5, h6, Option.bind]
            | some lTok =>
              cases h7 : pyInt (List.tail lTok) with
              | none => simp [h1, h2, h3, h4, h5, h6, h7, Option.bind,
                  List.drop_one]
              | some laneN =>
                cases h8 : negIdx (fastqFields s) 4 with
                | none =>
                  have hlt := negIdx_none_lt _ 4 (by omega) h8
                  simp [h1, h2, h3, h4, h5, h6, h7, h8, Option.bind, hlt,
                    List.drop_one]
                | some bTok =>
                  have hlen := negIdx_some_le _ 4 _ h8
                  simp [h1, h2, h3, h4, h5, h6, h7, h8, Option.bind,
                    List.drop_one,
                    show ¬((fastqFields s).length < 4) from by omega]

theorem sectioned_row_pipeline (fcid : PyStr) (hdr vals : List PyStr)
    (sid desc sp : PyStr) (laneVal : Int)
    (hclean : ∀ cell ∈ hdr ++ vals, ',' ∉ cell ∧ '"' ∉ cell)
    (hhne : hdr ≠ [])
    (hlen : vals.length = hdr.length)
    (hsid : rowLookup hdr vals (pystr "Sample_ID") = some sid)
    (hdesc : rowLookup hdr vals (pystr "Description") = some desc)
    (hsp : rowLookup hdr vals (pystr "Sample_Project") = some sp)
    (hlane : sectionedLane hdr vals = some laneVal) :
    get_casava_sample_sheet fcid
      [pystr "[Header]", pystr "[Data]", joinSep ',' hdr, joinSep ',' vals] =
      SheetResult.ok [⟨fcid, laneVal, sid, [], sectionedIndex hdr vals, desc,
        [], [], [], if sp = [] then extract_initials sid else sp⟩] := by
  have hvne : vals ≠ [] := by
    intro hv
    rw [hv] at hlen
    simp only [List.length_nil] at hlen
    exact hhne (List.length_eq_zero.1 hlen.symm)
  have hhdr2 : splitSep ',' (joinSep ',' hdr) = hdr :=
    splitSep_joinSep_of ',' hdr hhne (fun p hp => (hclean p (by simp [hp])).1)
  have hvals2 : splitSep ',' (joinSep ',' vals) = vals :=
    splitSep_joinSep_of ',' vals hvne
      (fun p hp => (hclean p (by simp [hp])).1)
  have hstrip : vals.map stripQuotes = vals := by
    have : ∀ p ∈ vals, stripQuotes p = p := by
      intro p hp
      apply stripBoth_of_forall_not
      intro c hc
      simp only [decide_eq_false_iff_not]
      intro hq
      exact (hclean p (by simp [hp])).2 (hq ▸ hc)
    rw [List.map_congr_left this]
    exact List.map_id' vals
  have hrow : mapSectionedRow fcid hdr vals =
      some ⟨fcid, laneVal, sid, [], sectionedIndex hdr vals, desc,
        [], [], [], if sp = [] then extract_initials sid else sp⟩ := by
    unfold mapSectionedRow
    rw [hlane, hsid, hdesc, hsp]
    rfl
  unfold get_casava_sample_sheet
  have hcond : startsWith (pystr "[Header]")
      (([pystr "[Header]", pystr "[Data]", joinSep ',' hdr,
        joinSep ',' vals] : List PyStr).headD []) = true := by
    rw [List.headD_cons]
    decide
  rw [if_pos hcond]
  show sectionedBranch fcid [pystr "[Data]", joinSep ',' hdr, joinSep ',' vals] = _
  unfold sectionedBranch
  rw [show findData [pystr "[Data]", joinSep ',' hdr, joinSep ',' vals] =
    some [joinSep ',' hdr, joinSep ',' vals] from by
      unfold findData
      rw [if_pos (by decide : startsWith (pystr "[Data]") (pystr "[Data]") = true)]]
  show (match convertSectioned fcid (splitSep ',' (joinSep ',' hdr))
      [joinSep ',' vals] with
    | none => SheetResult.error
    | some rows => SheetResult.ok rows) = _
  rw [hhdr2]
  rw [show convertSectioned fcid hdr [joinSep ',' vals] =
    some [⟨fcid, laneVal, sid, [], sectionedIndex hdr vals, desc,
        [], [], [], if sp = [] then extract_initials sid else sp⟩] from by
      rw [show convertSectioned fcid hdr [joinSep ',' vals] =
        (if (splitSep ',' (joinSep ',' vals)).length = hdr.length then
          (mapSectionedRow fcid hdr
            ((splitSep ',' (joinSep ',' vals)).map stripQuotes)).bind
            (fun row => (convertSectioned fcid hdr []).map (row :: ·))
        else none) from rfl]
      rw [hvals2, if_pos hlen, hstrip, hrow]
      rfl]

instance instDecidableGoodFastqParts (sample bc : PyStr) (lane read set_ : Nat) :
    Decidable (GoodFastqParts sample bc lane read set_) := by
  unfold GoodFastqParts
  infer_instance

/-! ## Claims -/

/-- C1: for every syntactically valid filename matching the convention
`<sampleName>_<barcodeOrNoIndex>_L<3-digit lane>_R<read>_<3-digit set>`
(no leading path, no extension), formatting the parsed `FastqFileName`
(`IlluminaFastq.__repr__`) returns exactly the original string. -/
theorem claim_C1_roundtrip (sample bc : PyStr) (lane read set_ : Nat)
    (h : GoodFastqParts sample bc lane read set_) :
    ∃ fq, IlluminaFastq.init (mkFastqName sample bc lane read set_) = some fq ∧
      fq.repr = mkFastqName sample bc lane read set_ :=
  fastq_roundtrip_core sample bc lane read set_ h

/-- Witness for C1 at the repository's own example
`NA10831_ATCACG_L002_R1_001`. -/
theorem claim_C1_roundtrip_witness :
    GoodFastqParts (pystr "NA10831") (pystr "ATCACG") 2 1 1 ∧
    ∃ fq, IlluminaFastq.init
        (mkFastqName (pystr "NA10831") (pystr "ATCACG") 2 1 1) = some fq ∧
      fq.repr = mkFastqName (pystr "NA10831") (pystr "ATCACG") 2 1 1 :=
  ⟨by decide, claim_C1_roundtrip (pystr "NA10831") (pystr "ATCACG") 2 1 1
    (by decide)⟩

/-- C2 counterexample: the claim asserts that a base form with fewer than 5
underscore-separated tokens fails to parse; but `ATCACG_L001_R1_001` has
exactly 4 well-shaped tokens and `IlluminaFastq.__init__` succeeds on it,
silently producing an empty sample name. -/
theorem claim_C2_counterexample :
    (fastqFields (pystr "ATCACG_L001_R1_001")).length = 4 ∧
    IlluminaFastq.init (pystr "ATCACG_L001_R1_001") =
      some ⟨pystr "ATCACG_L001_R1_001", [], some (pystr "ATCACG"), 1, 1, 1⟩ :=
  ⟨by decide, by decide⟩

/-- C2 (amended): parsing fails exactly when the base form splits into fewer
than 4 underscore-separated tokens, or the set token is not an integer, or
the read token lacks an integer second character, or the lane token after
its first character is not an integer; with exactly 4 well-shaped tokens
parsing succeeds (with an empty sample name, see the counterexample). -/
theorem claim_C2_malformed (s : PyStr) :
    IlluminaFastq.init s = none ↔ malformedFastqName s = true :=
  init_none_iff_malformed s

/-- C3: for every finite collection of syntactically valid, mutually distinct
filenames, `get_unique_fastq_names` returns a mapping with exactly one entry
per input filename (in input order) and pairwise distinct alias values; in
particular it never fails on such inputs (the `FULL` template is a guaranteed
fallback). -/
theorem claim_C3_unique_names (fastqs : List PyStr) (hnd : fastqs.Nodup)
    (hval : ∀ f ∈ fastqs, ValidFastqName f) :
    ∃ m, get_unique_fastq_names fastqs = some m ∧
      m.map Prod.fst = fastqs ∧ (m.map Prod.snd).Nodup :=
  get_unique_fastq_names_core fastqs hnd hval

/-- Witness for C3 at the paired-end two-lane scenario of the specification. -/
theorem claim_C3_unique_names_witness :
    ([pystr "A_TAG_L001_R1_001", pystr "A_TAG_L001_R2_001",
      pystr "A_TAG_L002_R1_001", pystr "A_TAG_L002_R2_001"] : List PyStr).Nodup ∧
    (∀ f ∈ ([pystr "A_TAG_L001_R1_001", pystr "A_TAG_L001_R2_001",
      pystr "A_TAG_L002_R1_001", pystr "A_TAG_L002_R2_001"] : List PyStr),
      ValidFastqName f) ∧
    ∃ m, get_unique_fastq_names
        [pystr "A_TAG_L001_R1_001", pystr "A_TAG_L001_R2_001",
         pystr "A_TAG_L002_R1_001", pystr "A_TAG_L002_R2_001"] = some m ∧
      m.map Prod.fst = [pystr "A_TAG_L001_R1_001", pystr "A_TAG_L001_R2_001",
         pystr "A_TAG_L002_R1_001", pystr "A_TAG_L002_R2_001"] ∧
      (m.map Prod.snd).Nodup := by
  have hval : ∀ f ∈ ([pystr "A_TAG_L001_R1_001", pystr "A_TAG_L001_R2_001",
      pystr "A_TAG_L002_R1_001", pystr "A_TAG_L002_R2_001"] : List PyStr),
      ValidFastqName f := by
    intro f hf
    simp only [List.mem_cons, List.not_mem_nil, or_false] at hf
    rcases hf with rfl | rfl | rfl | rfl
    · exact ⟨pystr "A", pystr "TAG", 1, 1, 1, by decide, by decide⟩
    · exact ⟨pystr "A", pystr "TAG", 1, 2, 1, by decide, by decide⟩
    · exact ⟨pystr "A", pystr "TAG", 2, 1, 1, by decide, by decide⟩
    · exact ⟨pystr "A", pystr "TAG", 2, 2, 1, by decide, by decide⟩
  exact ⟨by decide, hval, claim_C3_unique_names _ (by decide) hval⟩

/-- A plain sample-sheet row with the given `SampleID` (counterexample data
for the duplicate-repair claim). -/
def c4Row (sid : String) : CasavaRow :=
  ⟨pystr "FC1", 1, pystr sid, [], [], [], [], [], [], pystr "PJ"⟩

/-- C4 counterexample: the table `[A, A, A_1]` has `N = 2` rows with one
identity and one row with a distinct identity, and `duplicated_names` finds
exactly the one group; but `fix_duplicated_names` renames the group to
`A_1, A_2`, colliding with the distinct row, so `duplicated_names` is *not*
empty afterwards, contradicting the claim as stated. -/
theorem claim_C4_counterexample :
    (∀ r ∈ [c4Row "A", c4Row "A", c4Row "A_1"],
      identityOf r = identityOf (c4Row "A") ∨
        identityOf r = identityOf (c4Row "A_1")) ∧
    identityOf (c4Row "A") ≠ identityOf (c4Row "A_1") ∧
    ([c4Row "A", c4Row "A", c4Row "A_1"].filter
      (fun r => identityOf r = identityOf (c4Row "A"))).length = 2 ∧
    ([c4Row "A", c4Row "A", c4Row "A_1"].filter
      (fun r => identityOf r = identityOf (c4Row "A_1"))).length = 1 ∧
    duplicated_names [c4Row "A", c4Row "A", c4Row "A_1"] =
      [[c4Row "A", c4Row "A"]] ∧
    duplicated_names
      (fix_duplicated_names [c4Row "A", c4Row "A", c4Row "A_1"]) ≠ [] :=
  ⟨by decide, by decide, by decide, by decide, by decide, by decide⟩

/-- C4 (amended): for a table of `N ≥ 2` rows sharing one identity tuple plus
one row with a distinct tuple, `duplicated_names` returns exactly one group —
the `N` rows in table order; and *provided the distinct row's tuple is not one
of the repaired tuples* `(<SampleID>_<i+1>, SampleProject, Index, Lane)`,
after `fix_duplicated_names` the duplicates are gone and the row at position
`i` (0-based) of the original group has its `SampleID` suffixed with
`_<i+1>`. -/
theorem claim_C4_duplicates (rows : List CasavaRow) (t tt : RowKey) (N : Nat)
    (hmem : ∀ r ∈ rows, identityOf r = t ∨ identityOf r = tt)
    (hne : t ≠ tt)
    (hNcnt : (rows.filter (fun r => identityOf r = t)).length = N)
    (hN2 : 2 ≤ N)
    (h1 : (rows.filter (fun r => identityOf r = tt)).length = 1)
    (hnc : ∀ i, i < N → tt ≠ suffKey t i) :
    duplicated_names rows = [rows.filter (fun r => identityOf r = t)] ∧
    (rows.filter (fun r => identityOf r = t)).length = N ∧
    duplicated_names (fix_duplicated_names rows) = [] ∧
    ((rows.zip (fix_duplicated_names rows)).filter
        (fun p => identityOf p.1 = t)).map Prod.snd =
      suffixSeq (rows.filter (fun r => identityOf r = t)) 0 := by
  obtain ⟨hc1, hc2⟩ := duplicates_core rows t tt N hmem hne hNcnt hN2 h1
  obtain ⟨hd1, hd2⟩ := hc2 hnc
  exact ⟨hc1, hNcnt, hd1, hd2⟩

/-- Witness for C4 at the table `[A, A, B]`. -/
theorem claim_C4_duplicates_witness :
    (∀ r ∈ [c4Row "A", c4Row "A", c4Row "B"],
      identityOf r = identityOf (c4Row "A") ∨
        identityOf r = identityOf (c4Row "B")) ∧
    identityOf (c4Row "A") ≠ identityOf (c4Row "B") ∧
    ([c4Row "A", c4Row "A", c4Row "B"].filter
      (fun r => identityOf r = identityOf (c4Row "A"))).length = 2 ∧
    ([c4Row "A", c4Row "A", c4Row "B"].filter
      (fun r => identityOf r = identityOf (c4Row "B"))).length = 1 ∧
    (∀ i, i < 2 → identityOf (c4Row "B") ≠ suffKey (identityOf (c4Row "A")) i) ∧
    (duplicated_names [c4Row "A", c4Row "A", c4Row "B"] =
      [[c4Row "A", c4Row "A", c4Row "B"].filter
        (fun r => identityOf r = identityOf (c4Row "A"))] ∧
    ([c4Row "A", c4Row "A", c4Row "B"].filter
      (fun r => identityOf r = identityOf (c4Row "A"))).length = 2 ∧
    duplicated_names
      (fix_duplicated_names [c4Row "A", c4Row "A", c4Row "B"]) = [] ∧
    (([c4Row "A", c4Row "A", c4Row "B"].zip
        (fix_duplicated_names [c4Row "A", c4Row "A", c4Row "B"])).filter
        (fun p => identityOf p.1 = identityOf (c4Row "A"))).map Prod.snd =
      suffixSeq ([c4Row "A", c4Row "A", c4Row "B"].filter
        (fun r => identityOf r = identityOf (c4Row "A"))) 0) :=
  ⟨by decide, by decide, by decide, by decide, by decide,
    claim_C4_duplicates [c4Row "A", c4Row "A", c4Row "B"]
      (identityOf (c4Row "A")) (identityOf (c4Row "B")) 2
      (by decide) (by decide) (by decide) (by omega) (by decide) (by decide)⟩

/-- C5 counterexample: the claim says any first line beginning with a
bracketed section header token selects the sectioned dialect; but the code
tests specifically for a `[Header]` prefix, so a sheet opening with
`[Reads]` — followed by a perfectly good `[Data]` section that the sectioned
branch would convert — raises the unrecognised-format error instead. -/
theorem claim_C5_counterexample :
    startsWith (pystr "[") (pystr "[Reads]") = true ∧
    sectionedBranch (pystr "FC1")
      [pystr "[Data]", pystr "Sample_ID,Sample_Project,index,Description",
        pystr "PB1,PB,ATCACG,x"] =
      SheetResult.ok [⟨pystr "FC1", 1, pystr "PB1", [], pystr "ATCACG",
        pystr "x", [], [], [], pystr "PB"⟩] ∧
    get_casava_sample_sheet (pystr "FC1")
      [pystr "[Reads]", pystr "[Data]",
        pystr "Sample_ID,Sample_Project,index,Description",
        pystr "PB1,PB,ATCACG,x"] = SheetResult.error :=
  ⟨by decide, by decide, by decide⟩

/-- C5 (amended): dialect detection reads the *first* line of the stream (not
the first non-empty line): a `[Header]` prefix (specifically) selects the
sectioned branch, which skips lines up to the first line starting with
`[Data]` and hands the rest (whose first line is the data header) to the
table parser; otherwise a line containing at least one comma selects the flat
branch with that line as header; otherwise the call fails. -/
theorem claim_C5_detection (fcid first : PyStr) (rest : List PyStr) :
    (startsWith (pystr "[Header]") first = true →
      get_casava_sample_sheet fcid (first :: rest) = sectionedBranch fcid rest) ∧
    (startsWith (pystr "[Header]") first = false → 0 < countChar ',' first →
      get_casava_sample_sheet fcid (first :: rest) = flatBranch rest) ∧
    (startsWith (pystr "[Header]") first = false → countChar ',' first = 0 →
      get_casava_sample_sheet fcid (first :: rest) = SheetResult.error) ∧
    (∀ A d B, rest = A ++ d :: B →
      (∀ l ∈ A, startsWith (pystr "[Data]") l = false) →
      startsWith (pystr "[Data]") d = true →
      findData rest = some B) := by
  refine ⟨?_, ?_, ?_, ?_⟩
  · intro h
    unfold get_casava_sample_sheet
    rw [List.headD_cons, if_pos h]
    rfl
  · intro h hcomma
    unfold get_casava_sample_sheet
    rw [List.headD_cons, if_neg (by rw [h]; simp), if_pos hcomma]
    rfl
  · intro h hcomma
    unfold get_casava_sample_sheet
    rw [List.headD_cons, if_neg (by rw [h]; simp),
      if_neg (by rw [hcomma]; simp)]
  · intro A d B hrest hA hd
    rw [hrest]
    exact findData_append A d B hA hd

/-- Witness for C5, exercising all three detection branches and the
`[Data]` hunt at concrete inputs. -/
theorem claim_C5_detection_witness :
    get_casava_sample_sheet (pystr "FC1")
        (pystr "[Header]" :: [pystr "[Data]", pystr "x"]) =
      sectionedBranch (pystr "FC1") [pystr "[Data]", pystr "x"] ∧
    get_casava_sample_sheet (pystr "FC1") (pystr "a,b" :: []) = flatBranch [] ∧
    get_casava_sample_sheet (pystr "FC1") (pystr "junk" :: []) =
      SheetResult.error ∧
    findData [pystr "[Reads]", pystr "[Data]", pystr "hdr"] =
      some [pystr "hdr"] :=
  ⟨(claim_C5_detection (pystr "FC1") (pystr "[Header]")
      [pystr "[Data]", pystr "x"]).1 (by decide),
   (claim_C5_detection (pystr "FC1") (pystr "a,b") []).2.1
      (by decide) (by decide),
   (claim_C5_detection (pystr "FC1") (pystr "junk") []).2.2.1
      (by decide) (by decide),
   (claim_C5_detection (pystr "FC1") (pystr "x")
      [pystr "[Reads]", pystr "[Data]", pystr "hdr"]).2.2.2
      [pystr "[Reads]"] (pystr "[Data]") [pystr "hdr"] rfl
      (by decide) (by decide)⟩

/-- C6: a sectioned-dialect source row maps to a canonical row whose `Lane`
is the source `Lane` field when that column exists and 1 otherwise, whose
`Index` is `index-index2` when an `index2` field exists, `index` alone when
only `index` exists, and empty otherwise, whose `FCID` is the supplied
default, and whose `SampleProject` is `Sample_Project` when non-empty and the
uppercased initials of `Sample_ID` otherwise (`TabFile` row access and
`bcf_utils.extract_initials` are modelled from the spec). -/
theorem claim_C6_sectioned_row (fcid : PyStr) (hdr vals : List PyStr)
    (sid desc sp : PyStr) (laneVal : Int)
    (hclean : ∀ cell ∈ hdr ++ vals, ',' ∉ cell ∧ '"' ∉ cell)
    (hhne : hdr ≠ [])
    (hlen : vals.length = hdr.length)
    (hsid : rowLookup hdr vals (pystr "Sample_ID") = some sid)
    (hdesc : rowLookup hdr vals (pystr "Description") = some desc)
    (hsp : rowLookup hdr vals (pystr "Sample_Project") = some sp)
    (hlane : sectionedLane hdr vals = some laneVal) :
    get_casava_sample_sheet fcid
      [pystr "[Header]", pystr "[Data]", joinSep ',' hdr, joinSep ',' vals] =
      SheetResult.ok [⟨fcid, laneVal, sid, [], sectionedIndex hdr vals, desc,
        [], [], [], if sp = [] then extract_initials sid else sp⟩] ∧
    (rowLookup hdr vals (pystr "Lane") = none → laneVal = 1) ∧
    (∀ i1 i2, rowLookup hdr vals (pystr "index") = some i1 →
      rowLookup hdr vals (pystr "index2") = some i2 →
      sectionedIndex hdr vals = i1 ++ '-' :: i2) ∧
    (∀ i1, rowLookup hdr vals (pystr "index") = some i1 →
      rowLookup hdr vals (pystr "index2") = none →
      sectionedIndex hdr vals = i1) ∧
    (rowLookup hdr vals (pystr "index") = none →
      sectionedIndex hdr vals = []) := by
  refine ⟨sectioned_row_pipeline fcid hdr vals sid desc sp laneVal hclean hhne
    hlen hsid hdesc hsp hlane, ?_, ?_, ?_, ?_⟩
  · intro hnone
    unfold sectionedLane at hlane
    rw [hnone] at hlane
    exact (Option.some_injective _ hlane).symm
  · intro i1 i2 h1 h2
    unfold sectionedIndex
    rw [h1, h2]
  · intro i1 h1 h2
    unfold sectionedIndex
    rw [h1, h2]
  · intro h1
    unfold sectionedIndex
    rw [h1]

/-- Witness for C6 at the dual-indexed MiSEQ row of the repository's tests:
`Sample_ID=PB1`, no `Lane` column (so lane 1), `index=TAAGGCGA` with
`index2=TAGATCGC`, empty `Sample_Project` (so the initials of `PB1`). -/
theorem claim_C6_sectioned_row_witness :
    rowLookup
      [pystr "Sample_ID", pystr "Sample_Name", pystr "Sample_Plate",
       pystr "Sample_Well", pystr "I7_Index_ID", pystr "index",
       pystr "I5_Index_ID", pystr "index2", pystr "Sample_Project",
       pystr "Description", pystr "GenomeFolder"]
      [pystr "PB1", [], pystr "PB", pystr "A01", pystr "N701",
       pystr "TAAGGCGA", pystr "N501", pystr "TAGATCGC", [], [], []]
      (pystr "Lane") = none ∧
    sectionedIndex
      [pystr "Sample_ID", pystr "Sample_Name", pystr "Sample_Plate",
       pystr "Sample_Well", pystr "I7_Index_ID", pystr "index",
       pystr "I5_Index_ID", pystr "index2", pystr "Sample_Project",
       pystr "Description", pystr "GenomeFolder"]
      [pystr "PB1", [], pystr "PB", pystr "A01", pystr "N701",
       pystr "TAAGGCGA", pystr "N501", pystr "TAGATCGC", [], [], []] =
      pystr "TAAGGCGA-TAGATCGC" ∧
    extract_initials (pystr "PB1") = pystr "PB" ∧
    get_casava_sample_sheet (pystr "660DMAAXX")
      [pystr "[Header]", pystr "[Data]",
       joinSep ','
        [pystr "Sample_ID", pystr "Sample_Name", pystr "Sample_Plate",
         pystr "Sample_Well", pystr "I7_Index_ID", pystr "index",
         pystr "I5_Index_ID", pystr "index2", pystr "Sample_Project",
         pystr "Description", pystr "GenomeFolder"],
       joinSep ','
        [pystr "PB1", [], pystr "PB", pystr "A01", pystr "N701",
         pystr "TAAGGCGA", pystr "N501", pystr "TAGATCGC", [], [], []]] =
      SheetResult.ok [⟨pystr "660DMAAXX", 1, pystr "PB1", [],
        sectionedIndex
          [pystr "Sample_ID", pystr "Sample_Name", pystr "Sample_Plate",
           pystr "Sample_Well", pystr "I7_Index_ID", pystr "index",
           pystr "I5_Index_ID", pystr "index2", pystr "Sample_Project",
           pystr "Description", pystr "GenomeFolder"]
          [pystr "PB1", [], pystr "PB", pystr "A01", pystr "N701",
           pystr "TAAGGCGA", pystr "N501", pystr "TAGATCGC", [], [], []],
        [], [], [], [],
        if ([] : PyStr) = [] then extract_initials (pystr "PB1") else []⟩] :=
  ⟨by decide, by decide, by decide,
    (claim_C6_sectioned_row (pystr "660DMAAXX")
      [pystr "Sample_ID", pystr "Sample_Name", pystr "Sample_Plate",
       pystr "Sample_Well", pystr "I7_Index_ID", pystr "index",
       pystr "I5_Index_ID", pystr "index2", pystr "Sample_Project",
       pystr "Description", pystr "GenomeFolder"]
      [pystr "PB1", [], pystr "PB", pystr "A01", pystr "N701",
       pystr "TAAGGCGA", pystr "N501", pystr "TAGATCGC", [], [], []]
      (pystr "PB1") [] [] 1
      (by decide) (by decide) (by decide) (by decide) (by decide) (by decide)
      (by decide)).1⟩

/-- C7: the claim says every row whose rendered text begins with `#` is
dropped, so one real row plus any number of comment rows yields a table of
length 1.  The deletion loop (`del` during `enumerate`) skips the element
that slides into a deleted slot: with two consecutive (quoted) comment rows
before the real row, the second comment row survives and the table has
length 2, one of its rows still rendering with a leading `#`.  The claim is
however the evident intent of the code (its own comment says "Remove lines
that appear to be commented"), and the repository's test only covers a
single comment row. -/
theorem claim_C7_comment_rows :
    casavaSheetFromLines
      [pystr "FCID,Lane,SampleID,SampleRef,Index,Description,Control,Recipe,Operator,SampleProject",
       pystr "\"#C1\",2,PB,PB,ACTGAT,RNA-seq,N,,,PJ",
       pystr "\"#C2\",3,PB,PB,ACTGAT,RNA-seq,N,,,PJ",
       pystr "\"D190HACXX\",1,\"PB\",\"PB\",\"CGATGT\",\"RNA-seq\",\"N\",,,\"Peter Briggs\""] =
      some [⟨pystr "#C2", 3, pystr "PB", pystr "PB", pystr "ACTGAT",
          pystr "RNA-seq", pystr "N", [], [], pystr "PJ"⟩,
        ⟨pystr "D190HACXX", 1, pystr "PB", pystr "PB", pystr "CGATGT",
          pystr "RNA-seq", pystr "N", [], [], pystr "Peter Briggs"⟩] ∧
    startsWith (pystr "#")
      (renderRow ⟨pystr "#C2", 3, pystr "PB", pystr "PB", pystr "ACTGAT",
        pystr "RNA-seq", pystr "N", [], [], pystr "PJ"⟩) = true ∧
    casavaSheetFromLines
      [pystr "FCID,Lane,SampleID,SampleRef,Index,Description,Control,Recipe,Operator,SampleProject",
       pystr "\"D190HACXX\",1,\"PB\",\"PB\",\"CGATGT\",\"RNA-seq\",\"N\",,,\"Peter Briggs\"",
       pystr "\"#D190HACXX\",2,\"PB\",\"PB\",\"ACTGAT\",\"RNA-seq\",\"N\",,,\"Peter Briggs\""] =
      some [⟨pystr "D190HACXX", 1, pystr "PB", pystr "PB", pystr "CGATGT",
        pystr "RNA-seq", pystr "N", [], [], pystr "Peter Briggs"⟩] :=
  ⟨by decide, by decide, by decide⟩

/-- C10: the claim says `get_casava_sample_sheet` terminates on every finite
stream whose first line begins with `[Header]`.  The `[Data]` hunt
`while not line.startswith(...): line = readline()` does not: at end of file
`readline` returns the empty string forever, so a sectioned sheet with no
`[Data]` line loops forever (modelled as the explicit `hang` result). -/
theorem claim_C10_data_hunt :
    (∀ l ∈ [pystr "IEMFileVersion,4"],
      startsWith (pystr "[Data]") l = false) ∧
    findData [pystr "IEMFileVersion,4"] = none ∧
    get_casava_sample_sheet (pystr "FC1")
      [pystr "[Header]", pystr "IEMFileVersion,4"] = SheetResult.hang :=
  ⟨by decide, by decide, by decide⟩

/-- C8: `fix_illegal_names` is idempotent: applying it twice yields the same
table as applying it once (so in particular every row's `SampleID` and
`SampleProject` agree between the two). -/
theorem claim_C8_idempotent (rows : List CasavaRow) :
    fix_illegal_names (fix_illegal_names rows) = fix_illegal_names rows ∧
    ∀ r ∈ fix_illegal_names rows, rowIllegal r = false := by
  refine ⟨fix_illegal_names_idem rows, ?_⟩
  intro r hr
  unfold fix_illegal_names at hr
  rcases List.mem_map.1 hr with ⟨r0, _, hEq⟩
  by_cases h : rowIllegal r0 = true
  · rw [if_pos h] at hEq
    rw [← hEq]
    exact rowIllegal_fixRowIllegal r0
  · rw [if_neg h] at hEq
    rw [← hEq]
    exact Bool.eq_false_iff.2 h
